import Mathlib

/-!
Verification of the fantasy-api service core against its specification.

The repository is a thin HTTP proxy over a fantasy-sports platform.  This file
gives a shallow embedding, over `List Char` strings and a JSON value type, of
the pieces of the code base that the specification's testable properties talk
about:

* the favorites configuration parser (`Settings.favorite_teams` in
  `src/settings.py`), embedded as `favoriteTeams`;
* the team-key pattern and league-key derivation used by the waivers route
  (`src/app.py`) and the favorites parser, embedded as `teamKeyFullPattern`,
  `splitTDot` and `matchTeamKey`;
* the waiver-transaction parser (`_parse_waiver_transactions` in
  `src/yahoo_client.py`), embedded as `parseWaiverTransactions` over a JSON
  value type, with Python exceptions modelled by `Except`;
* the OAuth authorization-code exchange (`exchange_authorization_code` in
  `src/yahoo_client.py`), embedded as `exchangeAuthorizationCode` with the
  persisted credential file threaded as explicit state;
* the credential-file store (`_write_oauth_data` / `_load_oauth_data` in
  `src/yahoo_client.py`), embedded down to the level of JSON text: `dumpJson`
  mirrors `json.dump(data, handle, indent=2, sort_keys=True)` plus the trailing
  newline, and `loadJson` mirrors `json.load`;
* the favorites enricher (`enrich_favorites` in `src/yahoo_client.py`) and the
  API-key dependency (`APIKeyChecker` in `src/deps.py`).

Python strings are `List Char`; Python dicts are association lists; machine
floats never enter the statements (JSON numbers are embedded as integers, and
the FAAB bid as an exact rational).
-/

/-- Abbreviation turning a string literal into the `List Char` the embedding
works with. -/
def cl (s : String) : List Char := s.data

/-! ## Python string primitives

`pyStrip`, `pySplit`, `pySplitOnce` model `str.strip()`, `str.split(sep)` and
`str.split(sep, 1)` for one-character separators, as used by
`Settings.favorite_teams`. -/

/-- ASCII whitespace stripped by Python's `str.strip()` (space, tab, newline,
carriage return, vertical tab, form feed). -/
def pyWsChar (c : Char) : Bool :=
  c.toNat = 32 || c.toNat = 9 || c.toNat = 10 || c.toNat = 13 || c.toNat = 11 || c.toNat = 12

/-- The regex class `\d` (also what `str.isdigit` holds of ASCII digits). -/
def isDigitChar (c : Char) : Bool := 48 ≤ c.toNat && c.toNat ≤ 57

/-- Drop leading Python whitespace. -/
def stripLeft (s : List Char) : List Char := s.dropWhile pyWsChar

/-- Drop trailing Python whitespace. -/
def stripRight (s : List Char) : List Char := (stripLeft s.reverse).reverse

/-- Python `s.strip()`. -/
def pyStrip (s : List Char) : List Char := stripRight (stripLeft s)

/-- Python `s.split(sep)` for a one-character separator: split at every
occurrence, keeping empty pieces (`"".split(sep) == [""]`). -/
def pySplit (sep : Char) : List Char → List (List Char)
  | [] => [[]]
  | c :: cs =>
    if c = sep then [] :: pySplit sep cs
    else
      match pySplit sep cs with
      | [] => [[c]]
      | h :: t => (c :: h) :: t

/-- Python `s.split(sep, 1)` restricted to the case the code guards by
`sep in s`: the piece before the first separator and everything after it. -/
def pySplitOnce (sep : Char) : List Char → List Char × List Char
  | [] => ([], [])
  | c :: cs =>
    if c = sep then ([], cs)
    else
      let p := pySplitOnce sep cs
      (c :: p.1, p.2)

/-! ## The team-key pattern

The waivers route validates `team_key` against `^\d+\.l\.\d+\.t\.\d+$` and,
when `league_key` is omitted, derives it as `team_key.split(".t.")[0]`
(`src/app.py`).  The favorites parser derives the league key with
`re.match(r"^(\d+\.l\.\d+)\.t\.\d+$", team_key)` and takes group 1
(`src/settings.py`). -/

/-- Longest prefix of decimal digits and the rest of the string. -/
def takeDigits : List Char → List Char × List Char
  | [] => ([], [])
  | c :: cs =>
    if isDigitChar c then
      let p := takeDigits cs
      (c :: p.1, p.2)
    else ([], c :: cs)

/-- The favorites parser's regex `^(\d+\.l\.\d+)\.t\.\d+$`: on a full match,
return group 1 (the league key); otherwise `none`. -/
def matchTeamKey (s : List Char) : Option (List Char) :=
  match takeDigits s with
  | (a, '.' :: 'l' :: '.' :: r2) =>
    match takeDigits r2 with
    | (b, '.' :: 't' :: '.' :: r4) =>
      if a = [] ∨ b = [] ∨ (takeDigits r4).1 = [] ∨ (takeDigits r4).2 ≠ [] then none
      else some (a ++ '.' :: 'l' :: '.' :: b)
    | _ => none
  | _ => none

/-- The waivers route's validation regex `^\d+\.l\.\d+\.t\.\d+$` as a full-match
test. -/
def teamKeyFullPattern (s : List Char) : Bool := (matchTeamKey s).isSome

/-- Python `team_key.split(".t.")[0]`: the prefix before the first occurrence
of the substring `".t."` (the whole string if it never occurs). -/
def splitTDot : List Char → List Char
  | [] => []
  | c :: cs =>
    if ['.', 't', '.'].isPrefixOf (c :: cs) then []
    else c :: splitTDot cs

theorem takeDigits_spec {s d r : List Char} (h : takeDigits s = (d, r)) :
    s = d ++ r ∧ (∀ c ∈ d, isDigitChar c = true) := by
  induction s generalizing d r with
  | nil =>
    simp only [takeDigits, Prod.mk.injEq] at h
    obtain ⟨rfl, rfl⟩ := h
    simp
  | cons c cs ih =>
    by_cases hc : isDigitChar c
    · rcases htd : takeDigits cs with ⟨d1, r1⟩
      simp only [takeDigits, hc, if_true, htd, Prod.mk.injEq] at h
      obtain ⟨rfl, rfl⟩ := h
      obtain ⟨hs, hdig⟩ := ih htd
      refine ⟨by simpa using hs, ?_⟩
      intro x hx
      rcases List.mem_cons.mp hx with rfl | hx
      · exact hc
      · exact hdig x hx
    · simp only [takeDigits, hc, Bool.false_eq_true, if_false, Prod.mk.injEq] at h
      obtain ⟨rfl, rfl⟩ := h
      simp

theorem isDigitChar_toNat {c : Char} (h : isDigitChar c = true) :
    48 ≤ c.toNat ∧ c.toNat ≤ 57 := by
  simpa [isDigitChar] using h

theorem isDigit_ne_dot {c : Char} (h : isDigitChar c = true) : c ≠ '.' := by
  intro heq; subst heq; exact absurd h (by decide)

theorem isDigit_ne_t {c : Char} (h : isDigitChar c = true) : c ≠ 't' := by
  intro heq; subst heq; exact absurd h (by decide)

theorem isDigitChar_not_ws {c : Char} (h : isDigitChar c = true) : pyWsChar c = false := by
  obtain ⟨h1, h2⟩ := isDigitChar_toNat h
  simp only [pyWsChar, Bool.or_eq_false_iff, decide_eq_false_iff_not]
  omega

theorem splitTDot_cons_ne (c : Char) (cs : List Char) (h : c ≠ '.') :
    splitTDot (c :: cs) = c :: splitTDot cs := by
  have h1 : (('.' : Char) == c) = false := beq_eq_false_iff_ne.mpr (fun he => h he.symm)
  rw [splitTDot]
  simp [List.isPrefixOf, h1]

theorem splitTDot_dot_ne (x : Char) (cs : List Char) (h : x ≠ 't') :
    splitTDot ('.' :: x :: cs) = '.' :: splitTDot (x :: cs) := by
  have h1 : (('t' : Char) == x) = false := beq_eq_false_iff_ne.mpr (fun he => h he.symm)
  rw [splitTDot]
  simp [List.isPrefixOf, h1]

theorem splitTDot_tDot (cs : List Char) : splitTDot ('.' :: 't' :: '.' :: cs) = [] := by
  rw [splitTDot]
  simp [List.isPrefixOf]

theorem splitTDot_digits (a t : List Char) (ha : ∀ c ∈ a, isDigitChar c = true) :
    splitTDot (a ++ t) = a ++ splitTDot t := by
  induction a with
  | nil => simp
  | cons c cs ih =>
    have hc : isDigitChar c = true := ha c (List.mem_cons_self _ _)
    rw [List.cons_append, splitTDot_cons_ne c _ (isDigit_ne_dot hc),
      ih (fun x hx => ha x (List.mem_cons_of_mem _ hx)), List.cons_append]

/-- Structural inversion of the favorites regex: a successful match of
`^(\d+\.l\.\d+)\.t\.\d+$` decomposes the string into three nonempty digit
groups, and group 1 is the league-key prefix. -/
theorem matchTeamKey_inv {s lk : List Char} (hm : matchTeamKey s = some lk) :
    ∃ a b d, a ≠ [] ∧ b ≠ [] ∧ d ≠ [] ∧
      (∀ c ∈ a, isDigitChar c = true) ∧ (∀ c ∈ b, isDigitChar c = true) ∧
      s = a ++ '.' :: 'l' :: '.' :: (b ++ '.' :: 't' :: '.' :: d) ∧
      lk = a ++ '.' :: 'l' :: '.' :: b := by
  unfold matchTeamKey at hm
  split at hm
  next a r2 heq1 =>
    split at hm
    next b r4 heq2 =>
      split at hm
      next hcond => exact absurd hm (by simp)
      next hcond =>
        push_neg at hcond
        obtain ⟨ha, hb, hd, hr5⟩ := hcond
        rcases heq3 : takeDigits r4 with ⟨d, r5⟩
        rw [heq3] at hd hr5
        obtain ⟨hs1, hdig1⟩ := takeDigits_spec heq1
        obtain ⟨hs2, hdig2⟩ := takeDigits_spec heq2
        obtain ⟨hs3, _⟩ := takeDigits_spec heq3
        refine ⟨a, b, d, ha, hb, hd, hdig1, hdig2, ?_, ?_⟩
        · rw [hs1, hs2, hs3]
          simp [show r5 = [] from hr5]
        · simpa using hm.symm
    next hne => exact absurd hm (by simp)
  next hne => exact absurd hm (by simp)

/-- `C6`: for every team key accepted by the waivers route's pattern
`^\d+\.l\.\d+\.t\.\d+$`, the league key the route derives by taking the prefix
before `".t."` equals group 1 of the favorites parser's regex
`^(\d+\.l\.\d+)\.t\.\d+$`. -/
theorem league_key_split_eq_regex (s : List Char) (h : teamKeyFullPattern s = true) :
    ∃ lk, matchTeamKey s = some lk ∧ splitTDot s = lk := by
  unfold teamKeyFullPattern at h
  rcases hm : matchTeamKey s with _ | lk
  · rw [hm] at h; simp at h
  refine ⟨lk, rfl, ?_⟩
  obtain ⟨a, b, d, _, hb, _, hdig1, hdig2, hs, hlk⟩ := matchTeamKey_inv hm
  rcases hbc : b with _ | ⟨b0, bs⟩
  · exact absurd hbc hb
  have hb0 : isDigitChar b0 = true := hdig2 b0 (by rw [hbc]; exact List.mem_cons_self _ _)
  rw [hs, splitTDot_digits a _ hdig1,
    splitTDot_dot_ne 'l' _ (by decide), splitTDot_cons_ne 'l' _ (by decide)]
  rw [hbc, List.cons_append,
    splitTDot_dot_ne b0 _ (isDigit_ne_t hb0), ← List.cons_append,
    splitTDot_digits (b0 :: bs) _ (by rw [← hbc]; exact hdig2), splitTDot_tDot, hlk, hbc]
  simp

/-- Witness for `C6` at the concrete team key `423.l.12345.t.7`. -/
theorem league_key_split_eq_regex_witness :
    teamKeyFullPattern (cl "423.l.12345.t.7") = true ∧
      ∃ lk, matchTeamKey (cl "423.l.12345.t.7") = some lk ∧
        splitTDot (cl "423.l.12345.t.7") = lk :=
  ⟨by decide, league_key_split_eq_regex (cl "423.l.12345.t.7") (by decide)⟩

/-! ## Decimal rendering

Used for Python f-string aliases (`f"fav{idx}"`) and for `json.dump` integer
output. -/

/-- The decimal digit character for a value below ten. -/
def digitChar : Nat → Char
  | 0 => '0' | 1 => '1' | 2 => '2' | 3 => '3' | 4 => '4'
  | 5 => '5' | 6 => '6' | 7 => '7' | 8 => '8' | _ => '9'

/-- Fuel-driven body of `natRepr`; the fuel only needs to exceed the number of
digits, and is what keeps the definition structurally recursive. -/
def natReprAux : Nat → Nat → List Char
  | 0, _ => []
  | fuel + 1, n =>
    if n < 10 then [digitChar n]
    else natReprAux fuel (n / 10) ++ [digitChar (n % 10)]

/-- Decimal representation of a natural number, most significant digit first,
without leading zeros (the output of Python's `str`/`repr` on a non-negative
int). -/
def natRepr (n : Nat) : List Char := natReprAux (n + 1) n

theorem natReprAux_fuel (f g n : Nat) (hf : n < f) (hg : n < g) :
    natReprAux f n = natReprAux g n := by
  induction n using Nat.strong_induction_on generalizing f g with
  | _ n ih =>
    match f, g with
    | f1 + 1, g1 + 1 =>
      by_cases h : n < 10
      · simp [natReprAux, h]
      · have hlt : n / 10 < n := Nat.div_lt_self (by omega) (by omega)
        simp only [natReprAux, h, if_false]
        rw [ih (n / 10) hlt f1 g1 (by omega) (by omega)]

theorem natRepr_small {n : Nat} (h : n < 10) : natRepr n = [digitChar n] := by
  rw [natRepr]
  show (if n < 10 then [digitChar n] else natReprAux n (n / 10) ++ [digitChar (n % 10)]) = _
  rw [if_pos h]

theorem natRepr_big {n : Nat} (h : 10 ≤ n) :
    natRepr n = natRepr (n / 10) ++ [digitChar (n % 10)] := by
  have hlt : n / 10 < n := Nat.div_lt_self (by omega) (by omega)
  rw [natRepr]
  show (if n < 10 then [digitChar n] else natReprAux n (n / 10) ++ [digitChar (n % 10)]) = _
  rw [if_neg (by omega), natReprAux_fuel n (n / 10 + 1) (n / 10) (by omega) (by omega)]
  rfl

/-! ## Favorites configuration parsing (`Settings.favorite_teams`) -/

/-- A favorites record: the dict `{league_key, team_key, alias}` built by
`Settings.favorite_teams`, with the two display-name keys `enrich_favorites`
may add later (`none` = key absent, `some none` = key present with value
`None`). -/
structure FavEntry where
  league_key : List Char
  team_key : List Char
  «alias» : List Char
  team_name : Option (Option (List Char)) := none
  league_name : Option (Option (List Char)) := none
deriving DecidableEq

/-- The league/team pair of one configuration entry: split on `|` if present,
else on `:`, else treat the whole token as a team key. -/
def favPairOfItem (item : List Char) : List Char × List Char :=
  if item.contains '|' then
    (pyStrip (pySplitOnce '|' item).1, pyStrip (pySplitOnce '|' item).2)
  else if item.contains ':' then
    (pyStrip (pySplitOnce ':' item).1, pyStrip (pySplitOnce ':' item).2)
  else ([], item)

/-- Derive the league key from the team key when it was not provided. -/
def favLeagueOf (p : List Char × List Char) : List Char :=
  if p.1 = [] ∧ p.2 ≠ [] then (matchTeamKey p.2).getD [] else p.1

/-- One entry of the favorites configuration: split it into a league/team
pair, derive the league key by regex when it is missing, and drop the entry
when the team key is empty.  The alias is always `f"fav{idx}"`. -/
def parseFavItem (idx : Nat) (item : List Char) : Option FavEntry :=
  let p := favPairOfItem item
  if p.2 = [] then none
  else some { league_key := favLeagueOf p, team_key := p.2,
              «alias» := cl "fav" ++ natRepr idx }

/-- The `enumerate(items, start=1)` loop body of `Settings.favorite_teams`:
the index advances on every item, including dropped ones. -/
def parseFavItems : Nat → List (List Char) → List FavEntry
  | _, [] => []
  | idx, it :: rest =>
    match parseFavItem idx it with
    | some r => r :: parseFavItems (idx + 1) rest
    | none => parseFavItems (idx + 1) rest

/-- `Settings.favorite_teams`: strip the configured string, split entries on
`;` if present else on `,` (keeping only non-blank entries), else treat the
whole string as one entry, and parse each entry. -/
def favoriteTeams (raw0 : List Char) : List FavEntry :=
  let raw := pyStrip raw0
  if raw = [] then []
  else
    let items0 :=
      if raw.contains ';' then ((pySplit ';' raw).map pyStrip).filter (· ≠ [])
      else if raw.contains ',' then ((pySplit ',' raw).map pyStrip).filter (· ≠ [])
      else []
    let items := if items0 = [] then [raw] else items0
    parseFavItems 1 items

/-! ## Favorites enrichment (`enrich_favorites`) -/

/-- One team as produced by `list_teams`. -/
structure TeamRec where
  team_key : List Char
  team_name : List Char
  waiver_priority : Option Int
deriving DecidableEq

/-- One league as produced by `list_teams`. -/
structure LeagueRec where
  league_id : List Char
  league_key : List Char
  league_name : Option (List Char)
  teams : List TeamRec
deriving DecidableEq

/-- Value stored in `team_lookup`. -/
structure TeamInfo where
  league_key : List Char
  league_name : Option (List Char)
  team_name : List Char
deriving DecidableEq

/-- Value stored in `league_lookup`. -/
structure LeagueInfo where
  league_key : List Char
  league_name : Option (List Char)
deriving DecidableEq

/-- Lookup in a Python dict modelled as its assignment sequence: a later
assignment to the same key overwrites an earlier one. -/
def dlookup {α : Type} (k : List Char) (assignments : List (List Char × α)) : Option α :=
  assignments.foldl (fun acc p => if p.1 = k then some p.2 else acc) none

/-- The `team_lookup` dict of `enrich_favorites`: teams of every league in
iteration order, skipping falsy team keys.  (`list_teams` always populates
`league_key` and `team_name`, so the `str(...) if ... is not None else ""`
guards reduce to field access.) -/
def buildTeamLookup (leagues : List LeagueRec) : List (List Char × TeamInfo) :=
  leagues.flatMap fun lg =>
    (lg.teams.filter (fun t => t.team_key ≠ [])).map fun t =>
      (t.team_key, ⟨lg.league_key, lg.league_name, t.team_name⟩)

/-- The `league_lookup` dict of `enrich_favorites`. -/
def buildLeagueLookup (leagues : List LeagueRec) : List (List Char × LeagueInfo) :=
  leagues.map fun lg => (lg.league_key, ⟨lg.league_key, lg.league_name⟩)

/-- `enrich_favorites`, with the `list_teams` call's outcome passed explicitly
(`.error` models the call raising any exception).  On a non-empty favorites
list and a failed fetch, the `except` handler first runs
`log.warning("favorites.enrichment_failed", error=str(exc))`; `log` is the
stdlib logger `logging.getLogger(__name__)` and `error=` is not an accepted
logging keyword, so the call raises `TypeError` before `return favorites` —
modelled by the `.error ()` result.  On success, each favorite is joined
against the team lookup (preferred) or the league lookup (fallback on a truthy
league key).  `entry.setdefault("league_key", ...)` keeps the existing value
because the parsed favorites always carry that key. -/
def enrichFavorites (fetched : Except Unit (List LeagueRec)) (favorites : List FavEntry) :
    Except Unit (List FavEntry) :=
  if favorites = [] then .ok []
  else
    match fetched with
    | .error _ => .error ()
    | .ok leagues =>
      let tl := buildTeamLookup leagues
      let ll := buildLeagueLookup leagues
      .ok (favorites.map fun fav =>
        match dlookup fav.team_key tl with
        | some info =>
          { fav with team_name := some (some info.team_name),
                     league_name := some info.league_name }
        | none =>
          if fav.league_key ≠ [] then
            match dlookup fav.league_key ll with
            | some li => { fav with league_name := some li.league_name }
            | none => fav
          else fav)

/-- The `/v1/favorites` pipeline over the two embedded stages: parse the
configured string, then enrich against the fetched league listing. -/
def favoritesPipeline (raw : List Char) (fetched : Except Unit (List LeagueRec)) :
    Except Unit (List FavEntry) :=
  enrichFavorites fetched (favoriteTeams raw)

/-- `C8` as stated is false: on any non-empty favorites list, when the
league-listing fetch inside `enrich_favorites` raises, the function does not
return the input unchanged — the `log.warning` call in the handler hands the
structlog-style keyword `error=` to the stdlib logger (`yahoo_client.py`
line 290) and raises `TypeError` before `return favorites`, so the call
raises; in particular it never produces the input list (nor any list). -/
theorem enrich_failure_raises :
    (∀ favs : List FavEntry, favs ≠ [] → enrichFavorites (.error ()) favs = .error ()) ∧
    enrichFavorites (.error ())
        [{ league_key := cl "423.l.1", team_key := cl "423.l.1.t.2", «alias» := cl "fav1" }] =
      .error () ∧
    (∀ l, enrichFavorites (.error ())
        [{ league_key := cl "423.l.1", team_key := cl "423.l.1.t.2", «alias» := cl "fav1" }] ≠
      .ok l) := by
  have hgen : ∀ favs : List FavEntry, favs ≠ [] →
      enrichFavorites (.error ()) favs = .error () := by
    intro favs h
    unfold enrichFavorites
    rw [if_neg h]
  refine ⟨hgen, hgen _ (by decide), ?_⟩
  intro l hl
  rw [hgen _ (by decide)] at hl
  exact Except.noConfusion hl

/-- The league listing of the `C7` scenario: league `423.l.12345` named
"League 12345" containing team `423.l.12345.t.7` named "Team Seven". -/
def scenarioLeagues : List LeagueRec :=
  [{ league_id := cl "12345", league_key := cl "423.l.12345",
     league_name := some (cl "League 12345"),
     teams := [{ team_key := cl "423.l.12345.t.1", team_name := cl "Team One",
                 waiver_priority := some 3 },
               { team_key := cl "423.l.12345.t.7", team_name := cl "Team Seven",
                 waiver_priority := some 1 }] }]

/-- `C7`, evaluation of the code at the claim's input: with
`FAVORITE_TEAMS="My Team@423.l.12345|423.l.12345.t.7"` the parser has no
`alias@` convention, so the pipeline yields league key `"My Team@423.l.12345"`
and alias `"fav1"`, not the claimed `"423.l.12345"` / `"My Team"` (the names
are still joined in).  The repository's own `tests/test_settings.py` expects
the `alias@` parsing the claim describes. -/
theorem favorites_scenario_divergence :
    favoritesPipeline (cl "My Team@423.l.12345|423.l.12345.t.7") (.ok scenarioLeagues) =
      .ok [{ league_key := cl "My Team@423.l.12345", team_key := cl "423.l.12345.t.7",
             «alias» := cl "fav1", team_name := some (some (cl "Team Seven")),
             league_name := some (some (cl "League 12345")) }] ∧
    (∀ l, favoritesPipeline (cl "My Team@423.l.12345|423.l.12345.t.7") (.ok scenarioLeagues) =
        .ok l →
      ∀ r ∈ l, r.league_key ≠ cl "423.l.12345" ∧ r.«alias» ≠ cl "My Team") := by
  have h1 : favoritesPipeline (cl "My Team@423.l.12345|423.l.12345.t.7") (.ok scenarioLeagues) =
      .ok [{ league_key := cl "My Team@423.l.12345", team_key := cl "423.l.12345.t.7",
             «alias» := cl "fav1", team_name := some (some (cl "Team Seven")),
             league_name := some (some (cl "League 12345")) }] := by
    rfl
  refine ⟨h1, ?_⟩
  intro l hl
  rw [h1] at hl
  injection hl with hl2
  subst hl2
  decide

/-! ## API-key checking (`APIKeyChecker` in `src/deps.py`) -/

/-- `APIKeyChecker.__call__`: `enabled = bool(settings.API_KEY)`; when enabled,
reject unless the `X-API-Key` header is truthy and equal to the configured
key. -/
def apiKeyRejects (apiKey : Option (List Char)) (header : Option (List Char)) : Bool :=
  match apiKey with
  | none => false
  | some k =>
    if k = [] then false
    else
      match header with
      | none => true
      | some h => decide (h = [] ∨ h ≠ k)

/-- `C9`: the API-key check rejects (HTTP 401, code `unauthorized`) exactly
when a non-empty API key is configured and the header is missing or different
from it; with no key configured every request passes. -/
theorem api_key_reject_iff (apiKey header : Option (List Char)) :
    apiKeyRejects apiKey header = true ↔
      (∃ k, apiKey = some k ∧ k ≠ [] ∧ (header = none ∨ header ≠ some k)) := by
  cases apiKey with
  | none => simp [apiKeyRejects]
  | some k =>
    by_cases hk : k = []
    · subst hk
      simp [apiKeyRejects]
    · cases header with
      | none => simp [apiKeyRejects, hk]
      | some h =>
        simp only [apiKeyRejects, if_neg hk, decide_eq_true_eq]
        constructor
        · intro hor
          refine ⟨k, rfl, hk, Or.inr ?_⟩
          simp only [ne_eq, Option.some.injEq]
          rcases hor with rfl | hne
          · exact fun he => hk he.symm
          · exact hne
        · rintro ⟨k2, hk2, hk2ne, hor⟩
          have hkk : k2 = k := by
            injection hk2 with he
            exact he.symm
          subst hkk
          rcases hor with hbad | hne
          · exact absurd hbad (by simp)
          · exact Or.inr (by simpa using hne)

/-! ## JSON values

Python values produced by `json.load` / `response.json()`: `None`, booleans,
numbers (embedded as integers), strings, lists and dicts.  Dicts are
association lists in key order; the code under verification only builds dicts
with distinct keys. -/

/-- A JSON value. -/
inductive JVal where
  | null
  | bool (b : Bool)
  | int (n : Int)
  | str (s : List Char)
  | arr (elems : List JVal)
  | obj (fields : List (List Char × JVal))

/-! `jsize` drives induction over the nested `JVal` type. -/

mutual
def jsize : JVal → Nat
  | .arr l => 1 + jsizeL l
  | .obj m => 1 + jsizeF m
  | _ => 1
def jsizeL : List JVal → Nat
  | [] => 0
  | v :: r => jsize v + jsizeL r
def jsizeF : List (List Char × JVal) → Nat
  | [] => 0
  | kv :: r => jsize kv.2 + jsizeF r
end

theorem jsize_pos (v : JVal) : 1 ≤ jsize v := by
  cases v <;> (simp only [jsize]; omega)

theorem jsize_le_of_mem {l : List JVal} {v : JVal} (h : v ∈ l) : jsize v ≤ jsizeL l := by
  induction l with
  | nil => cases h
  | cons x r ih =>
    rcases List.mem_cons.mp h with rfl | h2
    · simp only [jsizeL]; omega
    · have := ih h2
      simp only [jsizeL]
      omega

theorem jsize_le_of_mem_fields {m : List (List Char × JVal)} {kv : List Char × JVal}
    (h : kv ∈ m) : jsize kv.2 ≤ jsizeF m := by
  induction m with
  | nil => cases h
  | cons x r ih =>
    rcases List.mem_cons.mp h with rfl | h2
    · simp only [jsizeF]; omega
    · have := ih h2
      simp only [jsizeF]
      omega

/-- Member-wise induction principle for `JVal`. -/
theorem JVal.indStrong (P : JVal → Prop)
    (hnull : P .null) (hbool : ∀ b, P (.bool b)) (hint : ∀ n, P (.int n))
    (hstr : ∀ s, P (.str s))
    (harr : ∀ l, (∀ v ∈ l, P v) → P (.arr l))
    (hobj : ∀ m, (∀ kv ∈ m, P kv.2) → P (.obj m)) : ∀ v, P v := by
  have key : ∀ n v, jsize v ≤ n → P v := by
    intro n
    induction n with
    | zero =>
      intro v hv
      have := jsize_pos v
      omega
    | succ n ih =>
      intro v hv
      cases v with
      | null => exact hnull
      | bool b => exact hbool b
      | int k => exact hint k
      | str s => exact hstr s
      | arr l =>
        refine harr l (fun x hx => ih x ?_)
        have h1 := jsize_le_of_mem hx
        simp [jsize] at hv
        omega
      | obj m =>
        refine hobj m (fun kv hkv => ih kv.2 ?_)
        have h1 := jsize_le_of_mem_fields hkv
        simp [jsize] at hv
        omega
  exact fun v => key (jsize v) v (Nat.le_refl _)

/-- Python truthiness of a JSON value (`bool(x)`). -/
def jTruthy : JVal → Bool
  | .null => false
  | .bool b => b
  | .int n => decide (n ≠ 0)
  | .str s => !s.isEmpty
  | .arr l => !l.isEmpty
  | .obj m => !m.isEmpty

/-- Dict lookup (`d.get(k)` / `k in d`); the dicts the code manipulates have
distinct keys, so first match suffices. -/
def jLookup (k : List Char) : List (List Char × JVal) → Option JVal
  | [] => none
  | kv :: r => if kv.1 = k then some kv.2 else jLookup k r

/-- The dict-or-list normalization the waiver parser applies twice:
`values()` of a dict, a list itself, anything else an empty iterable. -/
def jValues : JVal → List JVal
  | .obj m => m.map Prod.snd
  | .arr l => l
  | _ => []

/-- Digits folded to the natural number they denote. -/
def decodeDigits (d : List Char) : Nat := d.foldl (fun a c => a * 10 + (c.toNat - 48)) 0

/-- Python `float(s)` on a string, for plain decimal forms
`[+-]digits[.digits]` / `[+-].digits` after stripping whitespace (exponent,
underscore, and inf/nan forms are out of scope for the embedding; they do not
occur in the claims). -/
def pyFloatStr (s : List Char) : Option Rat :=
  let t := pyStrip s
  let sg :=
    match t with
    | '-' :: r => (true, r)
    | '+' :: r => (false, r)
    | r => (false, r)
  let p1 := takeDigits sg.2
  match p1.2 with
  | [] =>
    if p1.1 = [] then none
    else some ((if sg.1 then -1 else 1) * (decodeDigits p1.1 : Rat))
  | '.' :: r2 =>
    let p2 := takeDigits r2
    if p2.2 ≠ [] then none
    else if p1.1 = [] ∧ p2.1 = [] then none
    else
      some ((if sg.1 then -1 else 1) *
        ((decodeDigits p1.1 : Rat) + (decodeDigits p2.1 : Rat) / (10 : Rat) ^ p2.1.length))
  | _ => none

/-- Python `float(x)` under the parser's `try`: numbers and booleans convert,
decimal strings parse, everything else (None, lists, dicts) raises and the
handler turns it into `None`. -/
def pyFloatJ : JVal → Option Rat
  | .int n => some (n : Rat)
  | .bool b => some (if b then 1 else 0)
  | .str s => pyFloatStr s
  | _ => none

/-! ## Waiver-transaction parsing (`_parse_waiver_transactions`) -/

/-- One pending waiver claim as assembled by the parser. -/
structure WaiverClaim where
  player : JVal
  action_type : JVal
  source_team_key : Option JVal
  destination_team_key : Option JVal
  faab_bid : Option Rat

/-- The navigation chain
`data["fantasy_content"]["league"][1]["transactions"]`, whose Python
exceptions (missing key, wrong type, short list) are all caught by the
surrounding `try` — hence an `Option`. -/
def navTransactions (data : JVal) : Option JVal :=
  match data with
  | .obj m =>
    match jLookup (cl "fantasy_content") m with
    | some (.obj m2) =>
      match jLookup (cl "league") m2 with
      | some (.arr (_ :: x1 :: _)) =>
        match x1 with
        | .obj m3 => jLookup (cl "transactions") m3
        | _ => none
      | _ => none
    | _ => none
  | _ => none

/-- The inner loop body over `actions`: skip non-dicts and dicts without
`"player"`; `a["player"][0]` demands a nonempty list whose head is a dict
(anything else raises uncaught `IndexError`/`TypeError`/`AttributeError`,
modelled as `.error`), and the `name` / `transaction_data` values must be
dicts for the `.get` calls to succeed. -/
def parseWaiverAction (tType : JVal) (faab : Option Rat) (a : JVal) :
    Except Unit (List WaiverClaim) :=
  match a with
  | .obj am =>
    match jLookup (cl "player") am with
    | none => .ok []
    | some pv =>
      match pv with
      | .arr (e :: _) =>
        match e with
        | .obj em =>
          match (jLookup (cl "name") em).getD (.obj []) with
          | .obj nm =>
            let player :=
              match jLookup (cl "full") nm with
              | some fv => if jTruthy fv then fv else .str []
              | none => .str []
            match (jLookup (cl "transaction_data") am).getD (.obj []) with
            | .obj tdm =>
              .ok [{ player := player,
                     action_type := (jLookup (cl "type") tdm).getD tType,
                     source_team_key := jLookup (cl "source_team_key") tdm,
                     destination_team_key := jLookup (cl "destination_team_key") tdm,
                     faab_bid := faab }]
            | _ => .error ()
          | _ => .error ()
        | _ => .error ()
      | _ => .error ()
  | _ => .ok []

/-- Fold of `parseWaiverAction` over the action iterable; an exception aborts
the whole parse. -/
def parseWaiverActions (tType : JVal) (faab : Option Rat) :
    List JVal → Except Unit (List WaiverClaim)
  | [] => .ok []
  | a :: rest => do
    let r ← parseWaiverAction tType faab a
    let rs ← parseWaiverActions tType faab rest
    .ok (r ++ rs)

/-- The outer loop body over transaction entries: skip non-dicts and dicts
without `"transaction"`; the transaction body itself must be a dict, or the
`.get` calls on it raise uncaught (`.error`). -/
def parseWaiverEntry (t : JVal) : Except Unit (List WaiverClaim) :=
  match t with
  | .obj m =>
    match jLookup (cl "transaction") m with
    | none => .ok []
    | some trx =>
      match trx with
      | .obj tm =>
        let tType := (jLookup (cl "type") tm).getD (.str (cl "waiver"))
        let faab :=
          match jLookup (cl "faab_bid") tm with
          | none => none
          | some .null => none
          | some v => pyFloatJ v
        parseWaiverActions tType faab (jValues ((jLookup (cl "players") tm).getD (.obj [])))
      | _ => .error ()
  | _ => .ok []

/-- Fold of `parseWaiverEntry` over the transaction iterable. -/
def parseWaiverEntries : List JVal → Except Unit (List WaiverClaim)
  | [] => .ok []
  | t :: rest => do
    let r ← parseWaiverEntry t
    let rs ← parseWaiverEntries rest
    .ok (r ++ rs)

/-- `_parse_waiver_transactions`: navigate to the transactions value (any
failure caught, yielding `[]`), normalize dict-or-list, and fold the entry
parser. -/
def parseWaiverTransactions (data : JVal) : Except Unit (List WaiverClaim) :=
  match navTransactions data with
  | none => .ok []
  | some tv => parseWaiverEntries (jValues tv)

/-- An upstream payload whose transactions value is `tv`. -/
def mkPayload (tv : JVal) : JVal :=
  .obj [(cl "fantasy_content",
    .obj [(cl "league", .arr [.null, .obj [(cl "transactions", tv)]])])]

/-- An upstream payload with no transactions key at all. -/
def payloadAbsent : JVal :=
  .obj [(cl "fantasy_content", .obj [(cl "league", .arr [.null, .obj []])])]

/-- The shapes of an action entry that the parser traverses without raising. -/
def wfAction (a : JVal) : Bool :=
  match a with
  | .obj am =>
    match jLookup (cl "player") am with
    | none => true
    | some pv =>
      match pv with
      | .arr (e :: _) =>
        match e with
        | .obj em =>
          (match (jLookup (cl "name") em).getD (.obj []) with
           | .obj _ => true
           | _ => false) &&
          (match (jLookup (cl "transaction_data") am).getD (.obj []) with
           | .obj _ => true
           | _ => false)
        | _ => false
      | _ => false
  | _ => true

/-- The shapes of a transaction entry that the parser traverses without
raising. -/
def wfEntry (t : JVal) : Bool :=
  match t with
  | .obj m =>
    match jLookup (cl "transaction") m with
    | none => true
    | some trx =>
      match trx with
      | .obj tm =>
        (jValues ((jLookup (cl "players") tm).getD (.obj []))).all wfAction
      | _ => false
  | _ => true

theorem exceptOk_bind {α β : Type} (x : α) (f : α → Except Unit β) :
    (Except.ok x >>= f) = f x := rfl

theorem parseWaiverAction_ok (tType : JVal) (faab : Option Rat) (a : JVal)
    (h : wfAction a = true) : ∃ l, parseWaiverAction tType faab a = .ok l := by
  cases a with
  | null => exact ⟨[], rfl⟩
  | bool b => exact ⟨[], rfl⟩
  | int n => exact ⟨[], rfl⟩
  | str s => exact ⟨[], rfl⟩
  | arr l => exact ⟨[], rfl⟩
  | obj am =>
    simp only [wfAction] at h
    rcases h1 : jLookup (cl "player") am with _ | pv
    · rw [h1] at h
      exact ⟨[], by simp only [parseWaiverAction, h1]⟩
    · rw [h1] at h
      cases pv with
      | null => simp at h
      | bool b => simp at h
      | int n => simp at h
      | str s => simp at h
      | obj o => simp at h
      | arr l2 =>
        cases l2 with
        | nil => simp at h
        | cons e rest =>
          cases e with
          | null => simp at h
          | bool b => simp at h
          | int n => simp at h
          | str s => simp at h
          | arr l3 => simp at h
          | obj em =>
            simp only [Bool.and_eq_true] at h
            obtain ⟨hA, hB⟩ := h
            rcases h2 : (jLookup (cl "name") em).getD (JVal.obj []) with
              _ | b | n | s | l3 | nm
            · rw [h2] at hA; simp at hA
            · rw [h2] at hA; simp at hA
            · rw [h2] at hA; simp at hA
            · rw [h2] at hA; simp at hA
            · rw [h2] at hA; simp at hA
            · rcases h3 : (jLookup (cl "transaction_data") am).getD (JVal.obj []) with
                _ | b | n | s | l3 | tdm
              · rw [h3] at hB; simp at hB
              · rw [h3] at hB; simp at hB
              · rw [h3] at hB; simp at hB
              · rw [h3] at hB; simp at hB
              · rw [h3] at hB; simp at hB
              · simp only [parseWaiverAction, h1, h2, h3]
                exact ⟨_, rfl⟩

theorem parseWaiverActions_ok (tType : JVal) (faab : Option Rat) (ts : List JVal)
    (h : ts.all wfAction = true) : ∃ l, parseWaiverActions tType faab ts = .ok l := by
  induction ts with
  | nil => exact ⟨[], rfl⟩
  | cons a rest ih =>
    simp only [List.all_cons, Bool.and_eq_true] at h
    obtain ⟨l1, h1⟩ := parseWaiverAction_ok tType faab a h.1
    obtain ⟨l2, h2⟩ := ih h.2
    refine ⟨l1 ++ l2, ?_⟩
    rw [parseWaiverActions, h1, exceptOk_bind, h2, exceptOk_bind]

theorem parseWaiverEntry_ok (t : JVal) (h : wfEntry t = true) :
    ∃ l, parseWaiverEntry t = .ok l := by
  cases t with
  | null => exact ⟨[], rfl⟩
  | bool b => exact ⟨[], rfl⟩
  | int n => exact ⟨[], rfl⟩
  | str s => exact ⟨[], rfl⟩
  | arr l => exact ⟨[], rfl⟩
  | obj m =>
    simp only [wfEntry] at h
    rcases h1 : jLookup (cl "transaction") m with _ | trx
    · rw [h1] at h
      exact ⟨[], by simp only [parseWaiverEntry, h1]⟩
    · rw [h1] at h
      cases trx with
      | null => simp at h
      | bool b => simp at h
      | int n => simp at h
      | str s => simp at h
      | arr l2 => simp at h
      | obj tm =>
        simp only [parseWaiverEntry, h1]
        exact parseWaiverActions_ok _ _ _ (by simpa using h)

theorem parseWaiverEntries_ok (ts : List JVal) (h : ts.all wfEntry = true) :
    ∃ l, parseWaiverEntries ts = .ok l := by
  induction ts with
  | nil => exact ⟨[], rfl⟩
  | cons t rest ih =>
    simp only [List.all_cons, Bool.and_eq_true] at h
    obtain ⟨l1, h1⟩ := parseWaiverEntry_ok t h.1
    obtain ⟨l2, h2⟩ := ih h.2
    refine ⟨l1 ++ l2, ?_⟩
    rw [parseWaiverEntries, h1, exceptOk_bind, h2, exceptOk_bind]

theorem navTransactions_mkPayload (tv : JVal) : navTransactions (mkPayload tv) = some tv := rfl

/-- `C1` as stated is false: the `try` in `_parse_waiver_transactions` only
wraps the navigation chain, so an entry whose `"transaction"` value is not a
dict makes `trx.get(...)` raise `AttributeError` out of the function instead
of yielding an empty result. -/
theorem waiver_parse_raises_cex :
    parseWaiverTransactions
        (mkPayload (.arr [.obj [(cl "transaction", .str (cl "oops"))]])) = .error () := rfl

/-- `C1` amended: navigation mismatches yield `[]`; an absent transactions key
and an empty transactions list both parse to `[]`; a list of transaction
entries parses without raising whenever every entry is well shaped
(`wfEntry`); and a keyed mapping parses exactly as the list of its values, for
any keys. -/
theorem waiver_parse_defensive :
    (∀ data, navTransactions data = none → parseWaiverTransactions data = .ok []) ∧
    parseWaiverTransactions payloadAbsent = .ok [] ∧
    parseWaiverTransactions (mkPayload (.arr [])) = .ok [] ∧
    (∀ ts, ts.all wfEntry = true →
      ∃ l, parseWaiverTransactions (mkPayload (.arr ts)) = .ok l) ∧
    (∀ kvs, parseWaiverTransactions (mkPayload (.obj kvs)) =
      parseWaiverTransactions (mkPayload (.arr (kvs.map Prod.snd)))) := by
  refine ⟨?_, rfl, rfl, ?_, ?_⟩
  · intro data h
    simp only [parseWaiverTransactions, h]
  · intro ts h
    have h2 := parseWaiverEntries_ok ts h
    simpa only [parseWaiverTransactions, navTransactions_mkPayload, jValues] using h2
  · intro kvs
    rfl

/-- Transaction entry used by the witness: a dict transaction body with an
empty `players` mapping. -/
def egEntry : JVal :=
  .obj [(cl "transaction", .obj [(cl "type", .str (cl "waiver")), (cl "players", .obj [])])]

/-- Witness for `C1`: the three quantified conjuncts of
`waiver_parse_defensive` applied at concrete inputs. -/
theorem waiver_parse_defensive_witness :
    parseWaiverTransactions (.int 3) = .ok [] ∧
    (∃ l, parseWaiverTransactions (mkPayload (.arr [egEntry])) = .ok l) ∧
    parseWaiverTransactions (mkPayload (.obj [(cl "0", egEntry)])) =
      parseWaiverTransactions (mkPayload (.arr [egEntry])) :=
  ⟨waiver_parse_defensive.1 (.int 3) rfl,
   waiver_parse_defensive.2.2.2.1 [egEntry] (by decide),
   waiver_parse_defensive.2.2.2.2 [(cl "0", egEntry)]⟩

/-! ## OAuth authorization-code exchange (`exchange_authorization_code`)

The upstream POST, the wall clock and the credential file are explicit
parameters/state.  Modelled from the spec: the configuration fields
`YAHOO_CONSUMER_KEY`, `YAHOO_CONSUMER_SECRET`, `YAHOO_REDIRECT_URI` that
`yahoo_client.py` reads are absent from the `Settings` class in
`src/settings.py` (§6 of the spec lists consumer key/secret and redirect URI
among the environment-sourced configuration). -/

/-- The Yahoo OAuth settings fields consumed by the exchange; `none` or an
empty string are both falsy under the code's `or` chains. -/
structure OAuthSettings where
  YAHOO_CONSUMER_KEY : Option (List Char)
  YAHOO_CONSUMER_SECRET : Option (List Char)
  YAHOO_REDIRECT_URI : Option (List Char)

/-- The credential file on disk: missing, unparseable JSON, or a parsed JSON
value. -/
inductive FileVal where
  | absent
  | invalid
  | json (v : JVal)

/-- Outcome of the exchange: the returned summary (`token_type`, `guid`,
`scope` read back from the stored record; the `expires_at` datetime is
wall-clock arithmetic outside the claims), a `YahooOAuthError` with its HTTP
status, or an uncaught Python `TypeError`/`AttributeError` — a non-dict JSON
value where a dict is required, or a `log.error`/`log.warning` call that hands
structlog-style keywords to the stdlib logger `logging.getLogger(__name__)`
and raises `TypeError` before the `raise YahooOAuthError` beneath it. -/
inductive ExOutcome where
  | ok (tokenType guid scope : Option JVal)
  | oauthErr (status : Nat)
  | pyTypeErr

/-- An upstream token-endpoint response: HTTP status and the result of
`response.json()` (`none` models a body that raises `ValueError`). -/
structure UpstreamResp where
  statusCode : Nat
  jsonBody : Option JVal

/-- `_load_oauth_data`: missing file loads as `{}`, invalid JSON raises a 500
`YahooOAuthError`, otherwise the parsed value. -/
def loadOauthData : FileVal → Except Nat JVal
  | .absent => .ok (.obj [])
  | .invalid => .error 500
  | .json v => .ok v

/-- Python truthiness of `d.get(k)`: `None` (missing key) is falsy. -/
def optTruthy : Option JVal → Bool
  | some v => jTruthy v
  | none => false

/-- One credential resolved as `settings.FIELD or data.get(key)`
(`_resolve_credentials`). -/
def resolveCred (setting : Option (List Char)) (fileKey : List Char)
    (m : List (List Char × JVal)) : Option JVal :=
  match setting with
  | some s => if s = [] then jLookup fileKey m else some (.str s)
  | none => jLookup fileKey m

/-- Dict assignment `d[k] = v` on an association list with distinct keys. -/
def setK : List (List Char × JVal) → List Char → JVal → List (List Char × JVal)
  | [], k, v => [(k, v)]
  | kv :: r, k, v => if kv.1 = k then (k, v) :: r else kv :: setK r k v

/-- The `optional_keys` loop body: assign only when the payload value is
present and not `None` (JSON `null`). -/
def condSetK (m : List (List Char × JVal)) (k : List Char) (o : Option JVal) :
    List (List Char × JVal) :=
  match o with
  | some v =>
    match v with
    | .null => m
    | _ => setK m k v
  | none => m

/-- `exchange_authorization_code`: validate the code, load and resolve
credentials, post to the token endpoint (`upstream`; `none` models
`requests.RequestException`), check the status, decode the body, require
truthy `access_token`/`refresh_token`/`token_type`, then update a copy of the
loaded record and persist it.  The returned pair is (outcome, file state);
every raising path leaves the file untouched.  Three error paths never reach
their `raise YahooOAuthError` line: the network-error handler (line 150), the
status `>= 400` branch (lines 154–158) and the invalid-JSON handler
(line 164) each first call the stdlib logger with structlog-style keyword
arguments, which raises `TypeError` — so those paths end in `.pyTypeErr`. -/
def exchangeAuthorizationCode (st : OAuthSettings) (fs : FileVal) (code : List Char)
    (redirectParam stateParam : Option (List Char)) (upstream : Option UpstreamResp)
    (tokenTime : JVal) : ExOutcome × FileVal :=
  if pyStrip code = [] then (.oauthErr 400, fs)
  else
    match loadOauthData fs with
    | .error sc => (.oauthErr sc, fs)
    | .ok data =>
      match data with
      | .obj m =>
        let ck := resolveCred st.YAHOO_CONSUMER_KEY (cl "consumer_key") m
        let cs := resolveCred st.YAHOO_CONSUMER_SECRET (cl "consumer_secret") m
        if optTruthy ck = false ∨ optTruthy cs = false then (.oauthErr 500, fs)
        else
          let settingRedirect : JVal :=
            match st.YAHOO_REDIRECT_URI with
            | some s => if s = [] then .str (cl "oob") else .str s
            | none => .str (cl "oob")
          let credRedirect : JVal :=
            match jLookup (cl "redirect_uri") m with
            | some v => if jTruthy v then v else settingRedirect
            | none => settingRedirect
          let redirect : JVal :=
            match redirectParam with
            | some p2 => if p2 = [] then credRedirect else .str p2
            | none => credRedirect
          match upstream with
          | none => (.pyTypeErr, fs)
          | some resp =>
            if 400 ≤ resp.statusCode then (.pyTypeErr, fs)
            else
              match resp.jsonBody with
              | none => (.pyTypeErr, fs)
              | some payload =>
                match payload with
                | .obj p =>
                  if optTruthy (jLookup (cl "access_token") p) = false ∨
                      optTruthy (jLookup (cl "refresh_token") p) = false ∨
                      optTruthy (jLookup (cl "token_type") p) = false then
                    (.oauthErr 502, fs)
                  else
                    let m1 := setK m (cl "consumer_key") (ck.getD .null)
                    let m2 := setK m1 (cl "consumer_secret") (cs.getD .null)
                    let m3 := setK m2 (cl "redirect_uri") redirect
                    let m4 := setK m3 (cl "access_token")
                      ((jLookup (cl "access_token") p).getD .null)
                    let m5 := setK m4 (cl "refresh_token")
                      ((jLookup (cl "refresh_token") p).getD .null)
                    let m6 := setK m5 (cl "token_type")
                      ((jLookup (cl "token_type") p).getD .null)
                    let m7 := setK m6 (cl "token_time") tokenTime
                    let m8 := condSetK m7 (cl "expires_in") (jLookup (cl "expires_in") p)
                    let m9 := condSetK m8 (cl "scope") (jLookup (cl "scope") p)
                    let m10 := condSetK m9 (cl "guid") (jLookup (cl "xoauth_yahoo_guid") p)
                    let m11 := condSetK m10 (cl "id_token") (jLookup (cl "id_token") p)
                    let m12 :=
                      match stateParam with
                      | some s => setK m11 (cl "state") (.str s)
                      | none => m11
                    (.ok (jLookup (cl "token_type") m12) (jLookup (cl "guid") m12)
                      (jLookup (cl "scope") m12), .json (.obj m12))
                | _ => (.pyTypeErr, fs)
      | _ => (.pyTypeErr, fs)

/-- The record keys `exchange_authorization_code` writes (seven always, five
conditionally). -/
def updatedKeys : List (List Char) :=
  [cl "consumer_key", cl "consumer_secret", cl "redirect_uri", cl "access_token",
   cl "refresh_token", cl "token_type", cl "token_time", cl "expires_in", cl "scope",
   cl "guid", cl "id_token", cl "state"]

theorem jLookup_setK_ne (k k2 : List Char) (v : JVal) (m : List (List Char × JVal))
    (h : k ≠ k2) : jLookup k (setK m k2 v) = jLookup k m := by
  induction m with
  | nil =>
    simp only [setK, jLookup]
    rw [if_neg (fun he => h he.symm)]
  | cons kv r ih =>
    by_cases hk : kv.1 = k2
    · simp only [setK, hk, if_true, jLookup]
      rw [if_neg (fun he => h he.symm), if_neg (fun he => h he.symm)]
    · simp only [setK, hk, if_false, jLookup]
      by_cases hh : kv.1 = k
      · rw [if_pos hh, if_pos hh]
      · rw [if_neg hh, if_neg hh, ih]

theorem jLookup_condSetK_ne (k k2 : List Char) (o : Option JVal)
    (m : List (List Char × JVal)) (h : k ≠ k2) :
    jLookup k (condSetK m k2 o) = jLookup k m := by
  cases o with
  | none => rfl
  | some v =>
    cases v with
    | null => rfl
    | bool b => exact jLookup_setK_ne _ _ _ _ h
    | int n => exact jLookup_setK_ne _ _ _ _ h
    | str s => exact jLookup_setK_ne _ _ _ _ h
    | arr l => exact jLookup_setK_ne _ _ _ _ h
    | obj o2 => exact jLookup_setK_ne _ _ _ _ h

/-- Shared spine for the two no-write error results: under a loadable dict
record and resolvable-or-not credentials, a 200 response whose body lacks a
required token field produces a `YahooOAuthError` before any write. -/
theorem exchange_missing_core (st : OAuthSettings) (fs : FileVal) (code : List Char)
    (rp sp : Option (List Char)) (tt : JVal) (mm p : List (List Char × JVal))
    (hload : loadOauthData fs = .ok (.obj mm))
    (hmiss : jLookup (cl "access_token") p = none ∨ jLookup (cl "refresh_token") p = none ∨
      jLookup (cl "token_type") p = none) :
    (∃ sc, (exchangeAuthorizationCode st fs code rp sp
        (some ⟨200, some (.obj p)⟩) tt).1 = .oauthErr sc) ∧
    (exchangeAuthorizationCode st fs code rp sp (some ⟨200, some (.obj p)⟩) tt).2 = fs := by
  by_cases hc : pyStrip code = []
  · constructor
    · exact ⟨400, by simp only [exchangeAuthorizationCode, hc, if_true]⟩
    · simp only [exchangeAuthorizationCode, hc, if_true]
  · by_cases hcred : (optTruthy (resolveCred st.YAHOO_CONSUMER_KEY (cl "consumer_key") mm) =
        false ∨
        optTruthy (resolveCred st.YAHOO_CONSUMER_SECRET (cl "consumer_secret") mm) = false)
    · constructor
      · exact ⟨500, by simp only [exchangeAuthorizationCode, hc, if_false, hload, if_pos hcred]⟩
      · simp only [exchangeAuthorizationCode, hc, if_false, hload, if_pos hcred]
    · have hm1 : optTruthy (jLookup (cl "access_token") p) = false ∨
          optTruthy (jLookup (cl "refresh_token") p) = false ∨
          optTruthy (jLookup (cl "token_type") p) = false := by
        rcases hmiss with h | h | h
        · exact Or.inl (by rw [h]; rfl)
        · exact Or.inr (Or.inl (by rw [h]; rfl))
        · exact Or.inr (Or.inr (by rw [h]; rfl))
      constructor
      · refine ⟨502, ?_⟩
        simp only [exchangeAuthorizationCode, hc, if_false, hload, if_neg hcred]
        norm_num
        rw [if_pos hm1]
      · simp only [exchangeAuthorizationCode, hc, if_false, hload, if_neg hcred]
        norm_num
        rw [if_pos hm1]

/-- `C2`: a 200 upstream response whose JSON body lacks any of `access_token`,
`refresh_token`, `token_type` raises a `YahooOAuthError` and the credential
file is exactly what it was before the call (the only write sits after the
token check).  The file is assumed loadable as a dict, as any credential file
this code writes is. -/
theorem exchange_missing_token_no_write (st : OAuthSettings) (fs : FileVal)
    (code : List Char) (rp sp : Option (List Char)) (tt : JVal)
    (p : List (List Char × JVal))
    (hfs : ∀ v, fs = .json v → ∃ mm, v = .obj mm)
    (hmiss : jLookup (cl "access_token") p = none ∨ jLookup (cl "refresh_token") p = none ∨
      jLookup (cl "token_type") p = none) :
    (∃ sc, (exchangeAuthorizationCode st fs code rp sp
        (some ⟨200, some (.obj p)⟩) tt).1 = .oauthErr sc) ∧
    (exchangeAuthorizationCode st fs code rp sp (some ⟨200, some (.obj p)⟩) tt).2 = fs := by
  cases fs with
  | absent => exact exchange_missing_core st .absent code rp sp tt [] p rfl hmiss
  | invalid =>
    by_cases hc : pyStrip code = []
    · constructor
      · exact ⟨400, by simp only [exchangeAuthorizationCode, hc, if_true]⟩
      · simp only [exchangeAuthorizationCode, hc, if_true]
    · constructor
      · exact ⟨500, by simp only [exchangeAuthorizationCode, hc, if_false, loadOauthData]⟩
      · simp only [exchangeAuthorizationCode, hc, if_false, loadOauthData]
  | json v =>
    obtain ⟨mm, rfl⟩ := hfs v rfl
    exact exchange_missing_core st (.json (.obj mm)) code rp sp tt mm p rfl hmiss

/-- Witness for `C2` at a concrete call: fresh file, good credentials, 200
response carrying only an `access_token`. -/
theorem exchange_missing_token_no_write_witness :
    (∃ sc, (exchangeAuthorizationCode ⟨some (cl "ck"), some (cl "cs"), none⟩ .absent
        (cl "abc") none none
        (some ⟨200, some (.obj [(cl "access_token", .str (cl "x"))])⟩) .null).1 =
      .oauthErr sc) ∧
    (exchangeAuthorizationCode ⟨some (cl "ck"), some (cl "cs"), none⟩ .absent
        (cl "abc") none none
        (some ⟨200, some (.obj [(cl "access_token", .str (cl "x"))])⟩) .null).2 = .absent :=
  exchange_missing_token_no_write ⟨some (cl "ck"), some (cl "cs"), none⟩ .absent
    (cl "abc") none none .null [(cl "access_token", .str (cl "x"))]
    (fun _ hv => nomatch hv) (Or.inr (Or.inl rfl))

/-- `C3` as stated is false: when the required token fields are absent from an
otherwise-200 response, the raised `YahooOAuthError` carries status 502
(`yahoo_client.py` line 171), not 400. -/
theorem exchange_missing_token_status_cex :
    (exchangeAuthorizationCode ⟨some (cl "ck"), some (cl "cs"), none⟩ .absent
        (cl "abc") none none
        (some ⟨200, some (.obj [(cl "access_token", .str (cl "x"))])⟩) .null).1 =
      .oauthErr 502 ∧
    (ExOutcome.oauthErr 502 ≠ ExOutcome.oauthErr 400) := by
  constructor
  · rfl
  · intro h
    injection h with h2
    omega

/-- `C3` amended: with a loadable dict record and resolvable credentials, a
200 response missing a required token field raises a `YahooOAuthError` with
status 502 (not 400); an unreachable upstream, an upstream error status
(≥ 400) and a sub-400 response with malformed JSON do not produce an OAuth
error at all — each of those handlers first calls the stdlib logger with
structlog-style keyword arguments (`yahoo_client.py` lines 150, 154–158, 164)
and raises `TypeError` before its `raise YahooOAuthError` line.  On every one
of these paths the credential file is untouched. -/
theorem exchange_error_statuses (st : OAuthSettings) (fs : FileVal) (code : List Char)
    (rp sp : Option (List Char)) (tt : JVal) (mm : List (List Char × JVal))
    (hc : pyStrip code ≠ [])
    (hload : loadOauthData fs = .ok (.obj mm))
    (hck : optTruthy (resolveCred st.YAHOO_CONSUMER_KEY (cl "consumer_key") mm) = true)
    (hcs : optTruthy (resolveCred st.YAHOO_CONSUMER_SECRET (cl "consumer_secret") mm) = true) :
    exchangeAuthorizationCode st fs code rp sp none tt = (.pyTypeErr, fs) ∧
    (∀ sc body, 400 ≤ sc →
      exchangeAuthorizationCode st fs code rp sp (some ⟨sc, body⟩) tt = (.pyTypeErr, fs)) ∧
    (∀ sc, sc < 400 →
      exchangeAuthorizationCode st fs code rp sp (some ⟨sc, none⟩) tt =
        (.pyTypeErr, fs)) ∧
    (∀ p, (jLookup (cl "access_token") p = none ∨ jLookup (cl "refresh_token") p = none ∨
        jLookup (cl "token_type") p = none) →
      exchangeAuthorizationCode st fs code rp sp (some ⟨200, some (.obj p)⟩) tt =
        (.oauthErr 502, fs)) := by
  have hcred : ¬(optTruthy (resolveCred st.YAHOO_CONSUMER_KEY (cl "consumer_key") mm) =
      false ∨
      optTruthy (resolveCred st.YAHOO_CONSUMER_SECRET (cl "consumer_secret") mm) = false) := by
    simp [hck, hcs]
  refine ⟨?_, ?_, ?_, ?_⟩
  · simp only [exchangeAuthorizationCode, hc, if_false, hload, if_neg hcred]
  · intro sc body hsc
    simp only [exchangeAuthorizationCode, hc, if_false, hload, if_neg hcred]
    rw [if_pos hsc]
  · intro sc hsc
    simp only [exchangeAuthorizationCode, hc, if_false, hload, if_neg hcred]
    rw [if_neg (by omega : ¬(400 ≤ sc))]
  · intro p hmiss
    have hm1 : optTruthy (jLookup (cl "access_token") p) = false ∨
        optTruthy (jLookup (cl "refresh_token") p) = false ∨
        optTruthy (jLookup (cl "token_type") p) = false := by
      rcases hmiss with h | h | h
      · exact Or.inl (by rw [h]; rfl)
      · exact Or.inr (Or.inl (by rw [h]; rfl))
      · exact Or.inr (Or.inr (by rw [h]; rfl))
    simp only [exchangeAuthorizationCode, hc, if_false, hload, if_neg hcred]
    rw [if_neg (by omega : ¬((400 : Nat) ≤ 200)), if_pos hm1]

/-- Witness for `C3` at concrete calls: unreachable upstream (`TypeError`),
upstream 503 (`TypeError`), malformed-JSON 200 (`TypeError`), and 200 missing
all token fields (OAuth error 502). -/
theorem exchange_error_statuses_witness :
    exchangeAuthorizationCode ⟨some (cl "ck"), some (cl "cs"), none⟩ .absent (cl "abc")
        none none none .null = (.pyTypeErr, .absent) ∧
    exchangeAuthorizationCode ⟨some (cl "ck"), some (cl "cs"), none⟩ .absent (cl "abc")
        none none (some ⟨503, none⟩) .null = (.pyTypeErr, .absent) ∧
    exchangeAuthorizationCode ⟨some (cl "ck"), some (cl "cs"), none⟩ .absent (cl "abc")
        none none (some ⟨200, none⟩) .null = (.pyTypeErr, .absent) ∧
    exchangeAuthorizationCode ⟨some (cl "ck"), some (cl "cs"), none⟩ .absent (cl "abc")
        none none (some ⟨200, some (.obj [])⟩) .null = (.oauthErr 502, .absent) := by
  have h := exchange_error_statuses ⟨some (cl "ck"), some (cl "cs"), none⟩ .absent
    (cl "abc") none none .null [] (by decide) rfl (by decide) (by decide)
  exact ⟨h.1, h.2.1 503 none (by omega), h.2.2.1 200 (by omega), h.2.2.2 [] (Or.inl rfl)⟩

/-- `C10`: a successful exchange persists an updated copy of the pre-existing
record; every key outside the twelve updated ones keeps its prior value. -/
theorem exchange_success_preserves_other_keys (st : OAuthSettings) (code : List Char)
    (rp sp : Option (List Char)) (tt : JVal) (m p : List (List Char × JVal))
    (hc : pyStrip code ≠ [])
    (hck : optTruthy (resolveCred st.YAHOO_CONSUMER_KEY (cl "consumer_key") m) = true)
    (hcs : optTruthy (resolveCred st.YAHOO_CONSUMER_SECRET (cl "consumer_secret") m) = true)
    (haccess : optTruthy (jLookup (cl "access_token") p) = true)
    (hrefresh : optTruthy (jLookup (cl "refresh_token") p) = true)
    (httyp : optTruthy (jLookup (cl "token_type") p) = true) :
    ∃ m2, (exchangeAuthorizationCode st (.json (.obj m)) code rp sp
        (some ⟨200, some (.obj p)⟩) tt).2 = .json (.obj m2) ∧
      (∃ t g sc, (exchangeAuthorizationCode st (.json (.obj m)) code rp sp
        (some ⟨200, some (.obj p)⟩) tt).1 = .ok t g sc) ∧
      ∀ k, k ∉ updatedKeys → jLookup k m2 = jLookup k m := by
  have hcred : ¬(optTruthy (resolveCred st.YAHOO_CONSUMER_KEY (cl "consumer_key") m) =
      false ∨
      optTruthy (resolveCred st.YAHOO_CONSUMER_SECRET (cl "consumer_secret") m) = false) := by
    simp [hck, hcs]
  have hmiss : ¬(optTruthy (jLookup (cl "access_token") p) = false ∨
      optTruthy (jLookup (cl "refresh_token") p) = false ∨
      optTruthy (jLookup (cl "token_type") p) = false) := by
    simp [haccess, hrefresh, httyp]
  simp only [exchangeAuthorizationCode, hc, if_false, loadOauthData, if_neg hcred]
  rw [if_neg (by omega : ¬((400 : Nat) ≤ 200)), if_neg hmiss]
  refine ⟨_, rfl, ⟨_, _, _, rfl⟩, ?_⟩
  intro k hk
  simp only [updatedKeys, List.mem_cons, List.not_mem_nil, or_false] at hk
  push_neg at hk
  obtain ⟨h1, h2, h3, h4, h5, h6, h7, h8, h9, h10, h11, h12⟩ := hk
  cases sp with
  | none =>
    rw [jLookup_condSetK_ne _ _ _ _ h11, jLookup_condSetK_ne _ _ _ _ h10,
      jLookup_condSetK_ne _ _ _ _ h9, jLookup_condSetK_ne _ _ _ _ h8,
      jLookup_setK_ne _ _ _ _ h7, jLookup_setK_ne _ _ _ _ h6,
      jLookup_setK_ne _ _ _ _ h5, jLookup_setK_ne _ _ _ _ h4,
      jLookup_setK_ne _ _ _ _ h3, jLookup_setK_ne _ _ _ _ h2,
      jLookup_setK_ne _ _ _ _ h1]
  | some s =>
    rw [jLookup_setK_ne _ _ _ _ h12,
      jLookup_condSetK_ne _ _ _ _ h11, jLookup_condSetK_ne _ _ _ _ h10,
      jLookup_condSetK_ne _ _ _ _ h9, jLookup_condSetK_ne _ _ _ _ h8,
      jLookup_setK_ne _ _ _ _ h7, jLookup_setK_ne _ _ _ _ h6,
      jLookup_setK_ne _ _ _ _ h5, jLookup_setK_ne _ _ _ _ h4,
      jLookup_setK_ne _ _ _ _ h3, jLookup_setK_ne _ _ _ _ h2,
      jLookup_setK_ne _ _ _ _ h1]

/-- Witness for `C10` at a concrete call whose pre-existing record carries an
extra key. -/
theorem exchange_success_preserves_other_keys_witness :
    ∃ m2, (exchangeAuthorizationCode ⟨some (cl "ck"), some (cl "cs"), none⟩
        (.json (.obj [(cl "extra", .str (cl "keepme"))])) (cl "abc") none none
        (some ⟨200, some (.obj [(cl "access_token", .str (cl "a")),
          (cl "refresh_token", .str (cl "r")), (cl "token_type", .str (cl "bearer"))])⟩)
        (.int 5)).2 = .json (.obj m2) ∧
      (∃ t g sc, (exchangeAuthorizationCode ⟨some (cl "ck"), some (cl "cs"), none⟩
        (.json (.obj [(cl "extra", .str (cl "keepme"))])) (cl "abc") none none
        (some ⟨200, some (.obj [(cl "access_token", .str (cl "a")),
          (cl "refresh_token", .str (cl "r")), (cl "token_type", .str (cl "bearer"))])⟩)
        (.int 5)).1 = .ok t g sc) ∧
      ∀ k, k ∉ updatedKeys →
        jLookup k m2 = jLookup k [(cl "extra", .str (cl "keepme"))] :=
  exchange_success_preserves_other_keys ⟨some (cl "ck"), some (cl "cs"), none⟩
    (cl "abc") none none (.int 5) [(cl "extra", .str (cl "keepme"))]
    [(cl "access_token", .str (cl "a")), (cl "refresh_token", .str (cl "r")),
      (cl "token_type", .str (cl "bearer"))]
    (by decide) (by decide) (by decide) (by decide) (by decide) (by decide)

/-! ## Strip, split and join lemmas for the favorites round trip -/

/-- The head of a string is not Python whitespace (vacuous for the empty
string). -/
def headOk : List Char → Prop
  | [] => True
  | c :: _ => pyWsChar c = false

theorem headOk_dropWhile (s : List Char) : headOk (s.dropWhile pyWsChar) := by
  induction s with
  | nil => trivial
  | cons c cs ih =>
    by_cases h : pyWsChar c
    · simpa [List.dropWhile, h] using ih
    · simp only [List.dropWhile, h]
      simpa [headOk] using h

theorem headOk_stripLeft (s : List Char) : headOk (stripLeft s) := headOk_dropWhile s

theorem stripLeft_eq_self {s : List Char} (h : headOk s) : stripLeft s = s := by
  cases s with
  | nil => rfl
  | cons c cs =>
    simp only [headOk] at h
    simp [stripLeft, List.dropWhile, h]

theorem stripRight_prefixOf (s : List Char) : stripRight s <+: s := by
  have h1 : stripLeft s.reverse <:+ s.reverse := List.dropWhile_suffix pyWsChar
  have h2 : (stripLeft s.reverse).reverse <+: s.reverse.reverse := by
    exact List.reverse_prefix.mpr (by simpa using h1)
  simpa [stripRight] using h2

theorem headOk_of_prefix {s t : List Char} (h : s <+: t) (ht : headOk t) : headOk s := by
  obtain ⟨r, hr⟩ := h
  cases s with
  | nil => trivial
  | cons c cs =>
    cases t with
    | nil => simp at hr
    | cons d ds =>
      have : c = d := by
        have := congrArg (List.head?) hr
        simpa using this
      subst this
      exact ht

theorem headOk_stripRight {s : List Char} (h : headOk s) : headOk (stripRight s) :=
  headOk_of_prefix (stripRight_prefixOf s) h

theorem stripRight_eq_self {s : List Char} (h : headOk s.reverse) : stripRight s = s := by
  rw [stripRight, stripLeft_eq_self h, List.reverse_reverse]

theorem headOk_reverse_stripRight (s : List Char) : headOk (stripRight s).reverse := by
  rw [stripRight, List.reverse_reverse]
  exact headOk_stripLeft s.reverse

theorem pyStrip_eq_self {s : List Char} (h1 : headOk s) (h2 : headOk s.reverse) :
    pyStrip s = s := by
  rw [pyStrip, stripLeft_eq_self h1, stripRight_eq_self h2]

theorem headOk_pyStrip (s : List Char) : headOk (pyStrip s) :=
  headOk_stripRight (headOk_stripLeft s)

theorem headOk_reverse_pyStrip (s : List Char) : headOk (pyStrip s).reverse :=
  headOk_reverse_stripRight (stripLeft s)

theorem pyStrip_idem (s : List Char) : pyStrip (pyStrip s) = pyStrip s :=
  pyStrip_eq_self (headOk_pyStrip s) (headOk_reverse_pyStrip s)

theorem mem_stripLeft {x : Char} {s : List Char} (h : x ∈ stripLeft s) : x ∈ s :=
  (List.dropWhile_sublist pyWsChar).subset h

theorem mem_pyStrip {x : Char} {s : List Char} (h : x ∈ pyStrip s) : x ∈ s := by
  have h1 : x ∈ (stripLeft (stripLeft s).reverse).reverse := h
  have h2 : x ∈ (stripLeft s).reverse := mem_stripLeft (by simpa using h1)
  exact mem_stripLeft (by simpa using h2)

theorem contains_iff {s : List Char} {c : Char} : s.contains c = true ↔ c ∈ s := by simp

theorem pySplitOnce_append (sep : Char) (pre post : List Char) (h : sep ∉ pre) :
    pySplitOnce sep (pre ++ sep :: post) = (pre, post) := by
  induction pre with
  | nil => simp [pySplitOnce]
  | cons c cs ih =>
    have hne : c ≠ sep := fun he => h (he ▸ List.mem_cons_self _ _)
    simp [pySplitOnce, hne, ih (fun hm => h (List.mem_cons_of_mem _ hm))]

theorem pySplitOnce_fst_not_mem (sep : Char) (s : List Char) :
    sep ∉ (pySplitOnce sep s).1 := by
  induction s with
  | nil => simp [pySplitOnce]
  | cons c cs ih =>
    by_cases h : c = sep
    · simp [pySplitOnce, h]
    · simp only [pySplitOnce, h, if_false, List.mem_cons, not_or]
      exact ⟨fun he => h he.symm, ih⟩

theorem pySplitOnce_mem_fst {sep x : Char} {s : List Char}
    (h : x ∈ (pySplitOnce sep s).1) : x ∈ s := by
  induction s with
  | nil => simpa [pySplitOnce] using h
  | cons c cs ih =>
    by_cases hc : c = sep
    · simp [pySplitOnce, hc] at h
    · simp only [pySplitOnce, hc, if_false, List.mem_cons] at h
      rcases h with rfl | h
      · exact List.mem_cons_self _ _
      · exact List.mem_cons_of_mem _ (ih h)

theorem pySplitOnce_mem_snd {sep x : Char} {s : List Char}
    (h : x ∈ (pySplitOnce sep s).2) : x ∈ s := by
  induction s with
  | nil => simpa [pySplitOnce] using h
  | cons c cs ih =>
    by_cases hc : c = sep
    · simp only [pySplitOnce, hc, if_true] at h
      exact List.mem_cons_of_mem _ h
    · simp only [pySplitOnce, hc, if_false] at h
      exact List.mem_cons_of_mem _ (ih h)

theorem pySplit_no_sep {sep : Char} {s : List Char} (h : sep ∉ s) :
    pySplit sep s = [s] := by
  induction s with
  | nil => rfl
  | cons c cs ih =>
    have hne : c ≠ sep := fun he => h (he ▸ List.mem_cons_self _ _)
    simp [pySplit, hne, ih (fun hm => h (List.mem_cons_of_mem _ hm))]

theorem pySplit_append {sep : Char} {x t : List Char} (hx : sep ∉ x) :
    pySplit sep (x ++ sep :: t) = x :: pySplit sep t := by
  induction x with
  | nil => simp [pySplit]
  | cons c cs ih =>
    have hne : c ≠ sep := fun he => hx (he ▸ List.mem_cons_self _ _)
    have ih2 := ih (fun hm => hx (List.mem_cons_of_mem _ hm))
    simp only [List.cons_append, pySplit, hne, if_false, List.append_eq, ih2]

/-- Render a favorites record the way the claim's `"alias@league|team"`
convention describes. -/
def renderFavSpec (r : FavEntry) : List Char :=
  r.«alias» ++ '@' :: r.league_key ++ '|' :: r.team_key

/-- Render a favorites record as `"league|team"` (the parser has no alias
convention). -/
def renderFavPair (r : FavEntry) : List Char :=
  r.league_key ++ '|' :: r.team_key

/-- Join configuration entries with `;`. -/
def joinSemi : List (List Char) → List Char
  | [] => []
  | [x] => x
  | x :: y :: rest => x ++ ';' :: joinSemi (y :: rest)

theorem pySplit_joinSemi {es : List (List Char)} (h : ∀ e ∈ es, (';' : Char) ∉ e)
    (hne : es ≠ []) : pySplit ';' (joinSemi es) = es := by
  induction es with
  | nil => exact absurd rfl hne
  | cons x rest ih =>
    cases rest with
    | nil => exact pySplit_no_sep (h x (List.mem_cons_self _ _))
    | cons y rest2 =>
      rw [joinSemi, pySplit_append (h x (List.mem_cons_self _ _)),
        ih (fun e he => h e (List.mem_cons_of_mem _ he)) (by simp)]

theorem headOk_append_left {u v : List Char} (hu : headOk u) (hune : u ≠ []) :
    headOk (u ++ v) := by
  cases u with
  | nil => exact absurd rfl hune
  | cons c cs => exact hu

theorem headOk_rev_append {u v : List Char} (hv : headOk v.reverse) (hvne : v ≠ []) :
    headOk (u ++ v).reverse := by
  rw [List.reverse_append]
  exact headOk_append_left hv (by simpa using hvne)

theorem headOk_of_all_digits {l : List Char} (h : ∀ c ∈ l, isDigitChar c = true)
    (hne : l ≠ []) : headOk l ∧ headOk l.reverse := by
  constructor
  · cases l with
    | nil => trivial
    | cons c cs => exact isDigitChar_not_ws (h c (List.mem_cons_self _ _))
  · cases hrev : l.reverse with
    | nil => trivial
    | cons c cs =>
      have hc : c ∈ l := by
        have : c ∈ l.reverse := by rw [hrev]; exact List.mem_cons_self _ _
        simpa using this
      exact isDigitChar_not_ws (h c hc)

/-- A successful regex derivation produces a nonempty, stripped league key
that contains no `|`. -/
theorem matchTeamKey_some_props {s g : List Char} (hm : matchTeamKey s = some g) :
    g ≠ [] ∧ pyStrip g = g ∧ ('|' : Char) ∉ g := by
  obtain ⟨a, b, d, ha, hb, _, hdig1, hdig2, _, hlk⟩ := matchTeamKey_inv hm
  subst hlk
  have hane : a ≠ [] := ha
  refine ⟨by simp [hane], ?_, ?_⟩
  · have hv : ('.' :: 'l' :: '.' :: b) = ['.', 'l', '.'] ++ b := rfl
    have hda := headOk_of_all_digits hdig1 ha
    have hdb := headOk_of_all_digits hdig2 hb
    refine pyStrip_eq_self (headOk_append_left hda.1 ha) ?_
    rw [hv]
    exact headOk_rev_append (headOk_rev_append hdb.2 hb) (by simp)
  · intro hmem
    rcases List.mem_append.mp hmem with hmem | hmem
    · exact absurd (hdig1 _ hmem) (by decide)
    · rcases List.mem_cons.mp hmem with he | hmem
      · exact absurd he (by decide)
      · rcases List.mem_cons.mp hmem with he | hmem
        · exact absurd he (by decide)
        · rcases List.mem_cons.mp hmem with he | hmem
          · exact absurd he (by decide)
          · exact absurd (hdig2 _ hmem) (by decide)

/-- The pair produced from a stripped entry has stripped components and no
`|` in the league part. -/
theorem favPairOfItem_props (item : List Char) (hst : pyStrip item = item) :
    pyStrip (favPairOfItem item).1 = (favPairOfItem item).1 ∧
    pyStrip (favPairOfItem item).2 = (favPairOfItem item).2 ∧
    ('|' : Char) ∉ (favPairOfItem item).1 := by
  unfold favPairOfItem
  by_cases hp : item.contains '|' = true
  · simp only [hp, if_true]
    exact ⟨pyStrip_idem _, pyStrip_idem _,
      fun hm => pySplitOnce_fst_not_mem '|' item (mem_pyStrip hm)⟩
  · by_cases hc : item.contains ':' = true
    · simp only [hp, hc, Bool.false_eq_true, if_false, if_true]
      refine ⟨pyStrip_idem _, pyStrip_idem _, ?_⟩
      intro hm
      exact hp (contains_iff.mpr (pySplitOnce_mem_fst (mem_pyStrip hm)))
    · simp only [hp, hc, Bool.false_eq_true, if_false]
      exact ⟨rfl, hst, by simp⟩

/-- The derived league key is stripped, `|`-free, and empty only when the
regex fails on the team key. -/
theorem favLeagueOf_props (p : List Char × List Char) (h1 : pyStrip p.1 = p.1)
    (hnp : ('|' : Char) ∉ p.1) (h2t : p.2 ≠ []) :
    pyStrip (favLeagueOf p) = favLeagueOf p ∧ ('|' : Char) ∉ favLeagueOf p ∧
    (favLeagueOf p = [] → matchTeamKey p.2 = none) := by
  unfold favLeagueOf
  by_cases hc : p.1 = [] ∧ p.2 ≠ []
  · rw [if_pos hc]
    rcases hm : matchTeamKey p.2 with _ | g
    · exact ⟨rfl, by simp, fun _ => rfl⟩
    · obtain ⟨hg1, hg2, hg3⟩ := matchTeamKey_some_props hm
      exact ⟨hg2, hg3, fun he => absurd he hg1⟩
  · rw [if_neg hc]
    exact ⟨h1, hnp, fun he => absurd ⟨he, h2t⟩ hc⟩

/-- Inversion of `parseFavItem` on a stripped entry. -/
theorem parseFavItem_inv {idx : Nat} {item : List Char} {r : FavEntry}
    (hst : pyStrip item = item) (h : parseFavItem idx item = some r) :
    r.team_key ≠ [] ∧ pyStrip r.team_key = r.team_key ∧
    pyStrip r.league_key = r.league_key ∧ ('|' : Char) ∉ r.league_key ∧
    (r.league_key = [] → matchTeamKey r.team_key = none) ∧
    r.«alias» = cl "fav" ++ natRepr idx ∧ r.team_name = none ∧ r.league_name = none := by
  unfold parseFavItem at h
  by_cases h2 : (favPairOfItem item).2 = []
  · rw [if_pos h2] at h
    exact absurd h (by simp)
  · rw [if_neg h2] at h
    obtain ⟨hp1, hp2, hp3⟩ := favPairOfItem_props item hst
    obtain ⟨hl1, hl2, hl3⟩ := favLeagueOf_props _ hp1 hp3 h2
    have hr : FavEntry.mk (favLeagueOf (favPairOfItem item)) (favPairOfItem item).2
        (cl "fav" ++ natRepr idx) none none = r := by
      simpa using h
    subst hr
    exact ⟨h2, hp2, hl1, hl2, hl3, rfl, rfl, rfl⟩

/-- Re-parsing a rendered `"league|team"` entry reproduces the record (with
the positional alias). -/
theorem parseFavItem_render (k : Nat) (r : FavEntry)
    (htk : r.team_key ≠ []) (hst : pyStrip r.team_key = r.team_key)
    (hsl : pyStrip r.league_key = r.league_key) (hnp : ('|' : Char) ∉ r.league_key)
    (hreg : r.league_key = [] → matchTeamKey r.team_key = none) :
    parseFavItem k (renderFavPair r) =
      some { league_key := r.league_key, team_key := r.team_key,
             «alias» := cl "fav" ++ natRepr k } := by
  have hcont : (renderFavPair r).contains '|' = true :=
    contains_iff.mpr (by simp [renderFavPair])
  have hsplit : pySplitOnce '|' (renderFavPair r) = (r.league_key, r.team_key) :=
    pySplitOnce_append '|' _ _ hnp
  have hpair : favPairOfItem (renderFavPair r) = (r.league_key, r.team_key) := by
    unfold favPairOfItem
    rw [hcont, if_pos rfl, hsplit]
    simp only [hsl, hst]
  have hleague : favLeagueOf (r.league_key, r.team_key) = r.league_key := by
    unfold favLeagueOf
    by_cases hl : r.league_key = []
    · simp only [hl, htk, ne_eq, not_false_iff, and_self, if_true, hreg hl,
        Option.getD_none]
    · simp [hl]
  unfold parseFavItem
  rw [hpair]
  simp only [htk, if_false, hleague]

/-- Invariant facts for every record produced from a list of stripped
entries. -/
theorem parseFavItems_inv (idx : Nat) (items : List (List Char))
    (hst : ∀ it ∈ items, pyStrip it = it) :
    ∀ r ∈ parseFavItems idx items,
      r.team_key ≠ [] ∧ pyStrip r.team_key = r.team_key ∧
      pyStrip r.league_key = r.league_key ∧ ('|' : Char) ∉ r.league_key ∧
      (r.league_key = [] → matchTeamKey r.team_key = none) ∧
      r.team_name = none ∧ r.league_name = none := by
  induction items generalizing idx with
  | nil => intro r hr; simp [parseFavItems] at hr
  | cons it rest ih =>
    intro r hr
    have hstit := hst it (List.mem_cons_self _ _)
    have hstrest := fun x hx => hst x (List.mem_cons_of_mem _ hx)
    rcases hit : parseFavItem idx it with _ | r0
    · rw [parseFavItems, hit] at hr
      exact ih (idx + 1) hstrest r hr
    · rw [parseFavItems, hit] at hr
      rcases List.mem_cons.mp hr with rfl | hr
      · obtain ⟨h1, h2, h3, h4, h5, _, h7, h8⟩ := parseFavItem_inv hstit hit
        exact ⟨h1, h2, h3, h4, h5, h7, h8⟩
      · exact ih (idx + 1) hstrest r hr

theorem stripped_of_mem_splitItems {sep : Char} {raw it : List Char}
    (h : it ∈ ((pySplit sep raw).map pyStrip).filter (· ≠ [])) : pyStrip it = it := by
  simp only [List.mem_filter, List.mem_map] at h
  obtain ⟨⟨x, _, rfl⟩, _⟩ := h
  exact pyStrip_idem x

/-- Every record of `favoriteTeams` satisfies the parser invariants. -/
theorem favoriteTeams_inv (s : List Char) :
    ∀ r ∈ favoriteTeams s,
      r.team_key ≠ [] ∧ pyStrip r.team_key = r.team_key ∧
      pyStrip r.league_key = r.league_key ∧ ('|' : Char) ∉ r.league_key ∧
      (r.league_key = [] → matchTeamKey r.team_key = none) ∧
      r.team_name = none ∧ r.league_name = none := by
  intro r hr
  simp only [favoriteTeams] at hr
  by_cases hraw : pyStrip s = []
  · rw [if_pos hraw] at hr
    simp at hr
  · rw [if_neg hraw] at hr
    by_cases h1 : (pyStrip s).contains ';' = true
    · rw [if_pos h1] at hr
      by_cases h0 : ((pySplit ';' (pyStrip s)).map pyStrip).filter (· ≠ []) = []
      · rw [if_pos h0] at hr
        refine parseFavItems_inv 1 _ ?_ r hr
        intro it hit
        rw [List.mem_singleton] at hit
        subst hit
        exact pyStrip_idem s
      · rw [if_neg h0] at hr
        exact parseFavItems_inv 1 _ (fun it hit => stripped_of_mem_splitItems hit) r hr
    · rw [if_neg h1] at hr
      by_cases h2 : (pyStrip s).contains ',' = true
      · rw [if_pos h2] at hr
        by_cases h0 : ((pySplit ',' (pyStrip s)).map pyStrip).filter (· ≠ []) = []
        · rw [if_pos h0] at hr
          refine parseFavItems_inv 1 _ ?_ r hr
          intro it hit
          rw [List.mem_singleton] at hit
          subst hit
          exact pyStrip_idem s
        · rw [if_neg h0] at hr
          exact parseFavItems_inv 1 _ (fun it hit => stripped_of_mem_splitItems hit) r hr
      · rw [if_neg h2, if_pos rfl] at hr
        refine parseFavItems_inv 1 _ ?_ r hr
        intro it hit
        rw [List.mem_singleton] at hit
        subst hit
        exact pyStrip_idem s

/-- A rendered `"league|team"` entry is stripped, nonempty, and free of the
separators, given the record invariants and the separator side conditions. -/
theorem renderFavPair_props (r : FavEntry)
    (htk : r.team_key ≠ []) (hst : pyStrip r.team_key = r.team_key)
    (hsl : pyStrip r.league_key = r.league_key)
    (hsep : (';' : Char) ∉ r.league_key ∧ (';' : Char) ∉ r.team_key ∧
      (',' : Char) ∉ r.league_key ∧ (',' : Char) ∉ r.team_key) :
    pyStrip (renderFavPair r) = renderFavPair r ∧ renderFavPair r ≠ [] ∧
    (';' : Char) ∉ renderFavPair r ∧ (',' : Char) ∉ renderFavPair r := by
  have htl : headOk ('|' :: r.team_key).reverse := by
    rw [List.reverse_cons]
    refine headOk_append_left ?_ (by simpa using htk)
    rw [← hst]
    exact headOk_reverse_pyStrip r.team_key
  refine ⟨?_, ?_, ?_, ?_⟩
  · refine pyStrip_eq_self ?_ ?_
    · cases hlk : r.league_key with
      | nil =>
        simp only [renderFavPair, hlk, List.nil_append]
        show pyWsChar '|' = false
        decide
      | cons c cs =>
        rw [renderFavPair, hlk]
        refine headOk_append_left ?_ (by simp)
        rw [← hlk, ← hsl]
        exact headOk_pyStrip r.league_key
    · rw [renderFavPair]
      exact headOk_rev_append htl (by simp)
  · simp [renderFavPair]
  · rw [renderFavPair]
    intro hm
    rcases List.mem_append.mp hm with hm | hm
    · exact hsep.1 hm
    · rcases List.mem_cons.mp hm with he | hm
      · exact absurd he (by decide)
      · exact hsep.2.1 hm
  · rw [renderFavPair]
    intro hm
    rcases List.mem_append.mp hm with hm | hm
    · exact hsep.2.2.1 hm
    · rcases List.mem_cons.mp hm with he | hm
      · exact absurd he (by decide)
      · exact hsep.2.2.2 hm

theorem joinSemi_ne_nil {es : List (List Char)} (h : ∀ e ∈ es, e ≠ []) (hne : es ≠ []) :
    joinSemi es ≠ [] := by
  cases es with
  | nil => exact absurd rfl hne
  | cons x rest =>
    cases rest with
    | nil => exact h x (List.mem_cons_self _ _)
    | cons y rest2 =>
      have hxne := h x (List.mem_cons_self _ _)
      rw [joinSemi]
      cases x with
      | nil => exact absurd rfl hxne
      | cons c cs => simp

theorem joinSemi_stripped {es : List (List Char)}
    (h : ∀ e ∈ es, pyStrip e = e ∧ e ≠ []) :
    headOk (joinSemi es) ∧ headOk (joinSemi es).reverse := by
  induction es with
  | nil => exact ⟨trivial, trivial⟩
  | cons x rest ih =>
    obtain ⟨hx, hxne⟩ := h x (List.mem_cons_self _ _)
    have hhx : headOk x := by rw [← hx]; exact headOk_pyStrip x
    have hrx : headOk x.reverse := by rw [← hx]; exact headOk_reverse_pyStrip x
    cases rest with
    | nil => exact ⟨hhx, hrx⟩
    | cons y rest2 =>
      have ih2 := ih (fun e he => h e (List.mem_cons_of_mem _ he))
      have hjne : joinSemi (y :: rest2) ≠ [] :=
        joinSemi_ne_nil (fun e he => (h e (List.mem_cons_of_mem _ he)).2) (by simp)
      constructor
      · rw [joinSemi]
        exact headOk_append_left hhx hxne
      · rw [joinSemi]
        refine headOk_rev_append ?_ (by simp)
        rw [List.reverse_cons]
        exact headOk_append_left ih2.2 (by simpa using hjne)

/-- Re-parsing the rendered entries of a record list reproduces it, provided
the aliases are the positional defaults. -/
theorem parseFavItems_render (rs : List FavEntry) (k : Nat)
    (hinv : ∀ r ∈ rs, r.team_key ≠ [] ∧ pyStrip r.team_key = r.team_key ∧
      pyStrip r.league_key = r.league_key ∧ ('|' : Char) ∉ r.league_key ∧
      (r.league_key = [] → matchTeamKey r.team_key = none) ∧
      r.team_name = none ∧ r.league_name = none)
    (halias : rs.map (·.«alias») =
      (List.range rs.length).map (fun i => cl "fav" ++ natRepr (k + i))) :
    parseFavItems k (rs.map renderFavPair) = rs := by
  induction rs generalizing k with
  | nil => rfl
  | cons r rest ih =>
    obtain ⟨htk, hst, hsl, hnp, hreg, htn, hln⟩ := hinv r (List.mem_cons_self _ _)
    have hitem := parseFavItem_render k r htk hst hsl hnp hreg
    have hrange : (List.range (r :: rest).length).map (fun i => cl "fav" ++ natRepr (k + i)) =
        (cl "fav" ++ natRepr k) ::
          (List.range rest.length).map (fun i => cl "fav" ++ natRepr (k + 1 + i)) := by
      rw [List.length_cons, List.range_succ_eq_map, List.map_cons, List.map_map]
      refine congrArg₂ List.cons (by simp) ?_
      refine List.map_congr_left ?_
      intro a _
      simp only [Function.comp_apply]
      exact congrArg (fun t => cl "fav" ++ t) (congrArg natRepr (by omega))
    rw [hrange, List.map_cons] at halias
    injection halias with ha1 ha2
    rw [List.map_cons, parseFavItems, hitem]
    have hhead : FavEntry.mk r.league_key r.team_key (cl "fav" ++ natRepr k) none none = r := by
      cases r with
      | mk a b c d e => simp_all
    rw [hhead, ih (k + 1) (fun x hx => hinv x (List.mem_cons_of_mem _ hx)) ha2]

/-- `C5` as stated is false: the parser has no `alias@pair` convention, so
re-parsing the `"alias@league|team"` rendering of a parsed configuration
absorbs the alias into the league key. -/
theorem fav_render_roundtrip_cex :
    favoriteTeams (joinSemi ((favoriteTeams (cl "423.l.12345.t.7")).map renderFavSpec)) ≠
      favoriteTeams (cl "423.l.12345.t.7") := by decide

/-- `C5` amended: rendering each parsed record as `"league_key|team_key"`
(no alias prefix), joining with `;`, and re-parsing reproduces the parsed
list, for every configuration whose parsed keys contain no `;` or `,` and
whose records all survived parsing in order (aliases are the positional
defaults `fav1..favN`). -/
theorem fav_render_roundtrip (s : List Char)
    (hsep : ∀ r ∈ favoriteTeams s, (';' : Char) ∉ r.league_key ∧
      (';' : Char) ∉ r.team_key ∧ (',' : Char) ∉ r.league_key ∧
      (',' : Char) ∉ r.team_key)
    (halias : (favoriteTeams s).map (·.«alias») =
      (List.range (favoriteTeams s).length).map (fun i => cl "fav" ++ natRepr (1 + i))) :
    favoriteTeams (joinSemi ((favoriteTeams s).map renderFavPair)) = favoriteTeams s := by
  have hinv := favoriteTeams_inv s
  have hentry : ∀ e ∈ (favoriteTeams s).map renderFavPair,
      pyStrip e = e ∧ e ≠ [] ∧ (';' : Char) ∉ e ∧ (',' : Char) ∉ e := by
    intro e he
    rw [List.mem_map] at he
    obtain ⟨r, hrmem, rfl⟩ := he
    obtain ⟨htk, hst, hsl, _, _, _, _⟩ := hinv r hrmem
    exact renderFavPair_props r htk hst hsl (hsep r hrmem)
  rcases hL : favoriteTeams s with _ | ⟨r0, rest⟩
  · rfl
  · rw [hL] at hinv hentry halias
    have hes_ne : (r0 :: rest).map renderFavPair ≠ [] := by simp
    have hstJ : pyStrip (joinSemi ((r0 :: rest).map renderFavPair)) =
        joinSemi ((r0 :: rest).map renderFavPair) := by
      obtain ⟨hh, hr⟩ :=
        joinSemi_stripped (fun e he => ⟨(hentry e he).1, (hentry e he).2.1⟩)
      exact pyStrip_eq_self hh hr
    have hJne : joinSemi ((r0 :: rest).map renderFavPair) ≠ [] :=
      joinSemi_ne_nil (fun e he => (hentry e he).2.1) hes_ne
    simp only [favoriteTeams, hstJ]
    rw [if_neg hJne]
    cases rest with
    | nil =>
      have hsemi1 : joinSemi ([r0].map renderFavPair) = renderFavPair r0 := rfl
      have hmem0 : renderFavPair r0 ∈ [r0].map renderFavPair := by simp
      have hc1 : (joinSemi ([r0].map renderFavPair)).contains ';' = false := by
        rw [hsemi1]
        refine Bool.eq_false_iff.mpr (fun hcon => ?_)
        exact (hentry _ hmem0).2.2.1 (contains_iff.mp hcon)
      have hc2 : (joinSemi ([r0].map renderFavPair)).contains ',' = false := by
        rw [hsemi1]
        refine Bool.eq_false_iff.mpr (fun hcon => ?_)
        exact (hentry _ hmem0).2.2.2 (contains_iff.mp hcon)
      rw [hc1, hc2]
      simp only [Bool.false_eq_true, if_false, if_pos rfl]
      rw [hsemi1]
      exact parseFavItems_render [r0] 1 hinv halias
    | cons r1 rest2 =>
      have hsemimem : (';' : Char) ∈ joinSemi ((r0 :: r1 :: rest2).map renderFavPair) := by
        simp only [List.map_cons, joinSemi]
        exact List.mem_append.mpr (Or.inr (List.mem_cons_self _ _))
      have hc1 : (joinSemi ((r0 :: r1 :: rest2).map renderFavPair)).contains ';' = true :=
        contains_iff.mpr hsemimem
      rw [hc1]
      simp only [if_true]
      have hsplit : pySplit ';' (joinSemi ((r0 :: r1 :: rest2).map renderFavPair)) =
          (r0 :: r1 :: rest2).map renderFavPair :=
        pySplit_joinSemi (fun e he => (hentry e he).2.2.1) hes_ne
      rw [hsplit]
      have hmap : ((r0 :: r1 :: rest2).map renderFavPair).map pyStrip =
          (r0 :: r1 :: rest2).map renderFavPair := by
        calc ((r0 :: r1 :: rest2).map renderFavPair).map pyStrip
            = ((r0 :: r1 :: rest2).map renderFavPair).map id :=
              List.map_congr_left (fun e he => (hentry e he).1)
          _ = (r0 :: r1 :: rest2).map renderFavPair := List.map_id _
      rw [hmap]
      have hfil : ((r0 :: r1 :: rest2).map renderFavPair).filter (· ≠ []) =
          (r0 :: r1 :: rest2).map renderFavPair := by
        refine List.filter_eq_self.mpr ?_
        intro e he
        simpa using (hentry e he).2.1
      rw [hfil, if_neg hes_ne]
      exact parseFavItems_render (r0 :: r1 :: rest2) 1 hinv halias

/-- Witness for `C5` (amended) at the configuration `"1.l.2.t.3;4.l.5|4.l.5.t.6"`. -/
theorem fav_render_roundtrip_witness :
    favoriteTeams (joinSemi ((favoriteTeams (cl "1.l.2.t.3;4.l.5|4.l.5.t.6")).map
      renderFavPair)) = favoriteTeams (cl "1.l.2.t.3;4.l.5|4.l.5.t.6") :=
  fav_render_roundtrip (cl "1.l.2.t.3;4.l.5|4.l.5.t.6") (by decide) (by decide)

/-! ## The credential file store: `json.dump(..., indent=2, sort_keys=True)`
and `json.load`

`_write_oauth_data` serializes the record with two-space indentation and
sorted keys, writes it to a temp file plus a trailing newline and renames it
into place; the file afterwards holds exactly `dumpJson` of the record.
`_load_oauth_data` parses the file text back (`loadJson`).  JSON numbers are
embedded as integers; the claims never touch float fields. -/

/-- Lowercase hex digit. -/
def hexDig (n : Nat) : Char :=
  if n < 10 then digitChar n
  else if n = 10 then 'a'
  else if n = 11 then 'b'
  else if n = 12 then 'c'
  else if n = 13 then 'd'
  else if n = 14 then 'e'
  else 'f'

/-- Four-digit lowercase hex rendering of a code unit. -/
def hexDigits4 (n : Nat) : List Char :=
  [hexDig (n / 4096 % 16), hexDig (n / 256 % 16), hexDig (n / 16 % 16), hexDig (n % 16)]

/-- `json.dump`'s `ensure_ascii` escaping of one character: the two-character
escapes for quote, backslash and the common controls, printable ASCII
verbatim, `\uXXXX` otherwise, with a surrogate pair above the basic plane. -/
def escChar (c : Char) : List Char :=
  if c = '"' then ['\\', '"']
  else if c = '\\' then ['\\', '\\']
  else if c.toNat = 8 then ['\\', 'b']
  else if c.toNat = 9 then ['\\', 't']
  else if c.toNat = 10 then ['\\', 'n']
  else if c.toNat = 12 then ['\\', 'f']
  else if c.toNat = 13 then ['\\', 'r']
  else if 32 ≤ c.toNat ∧ c.toNat ≤ 126 then [c]
  else if c.toNat < 65536 then '\\' :: 'u' :: hexDigits4 c.toNat
  else
    '\\' :: 'u' :: hexDigits4 (55296 + (c.toNat - 65536) / 1024) ++
      '\\' :: 'u' :: hexDigits4 (56320 + (c.toNat - 65536) % 1024)

/-- Escape a whole string body. -/
def escString (s : List Char) : List Char := s.flatMap escChar

/-- Python `repr` of an int. -/
def intRepr (n : Int) : List Char :=
  if n < 0 then '-' :: natRepr (-n).toNat else natRepr n.toNat

/-- Code-point comparison of keys (Python string `<`). -/
def keyLt : List Char → List Char → Bool
  | [], [] => false
  | [], _ :: _ => true
  | _ :: _, [] => false
  | c :: cs, d :: ds =>
    if c.toNat < d.toNat then true
    else if d.toNat < c.toNat then false
    else keyLt cs ds

/-- Insert a field into a key-sorted field list. -/
def insertField (kv : List Char × JVal) : List (List Char × JVal) → List (List Char × JVal)
  | [] => [kv]
  | kv2 :: r => if keyLt kv.1 kv2.1 then kv :: kv2 :: r else kv2 :: insertField kv r

/-- Sort fields by key (`sort_keys=True`). -/
def sortFields (l : List (List Char × JVal)) : List (List Char × JVal) :=
  l.foldr insertField []

/-! `canon` applies the key sorting recursively, so serializing `canon v`
without re-sorting equals `json.dump(v, sort_keys=True)`. -/

mutual
def canon : JVal → JVal
  | .arr l => .arr (canonL l)
  | .obj m => .obj (sortFields (canonF m))
  | v => v
def canonL : List JVal → List JVal
  | [] => []
  | v :: r => canon v :: canonL r
def canonF : List (List Char × JVal) → List (List Char × JVal)
  | [] => []
  | kv :: r => (kv.1, canon kv.2) :: canonF r
end

/-- Two-space indentation at a nesting level. -/
def pad (lvl : Nat) : List Char := List.replicate (2 * lvl) ' '

mutual
/-- Serialize a (key-sorted) value at an indentation level, exactly as
`json.dump(..., indent=2)` lays it out. -/
def serVal (lvl : Nat) : JVal → List Char
  | .null => cl "null"
  | .bool true => cl "true"
  | .bool false => cl "false"
  | .int n => intRepr n
  | .str s => '"' :: escString s ++ ['"']
  | .arr [] => ['[', ']']
  | .arr (v :: vs) =>
    '[' :: '\n' :: pad (lvl + 1) ++ serVal (lvl + 1) v ++ serTail (lvl + 1) vs ++
      '\n' :: pad lvl ++ [']']
  | .obj [] => ['\x7b', '\x7d']
  | .obj (kv :: fs) =>
    '\x7b' :: '\n' :: pad (lvl + 1) ++ serEntry (lvl + 1) kv ++ serFTail (lvl + 1) fs ++
      '\n' :: pad lvl ++ ['\x7d']
/-- Serialize one `"key": value` entry. -/
def serEntry (lvl : Nat) (kv : List Char × JVal) : List Char :=
  '"' :: escString kv.1 ++ '"' :: ':' :: ' ' :: serVal lvl kv.2
/-- Serialize the remaining array items, each behind `",\n" ++ pad`. -/
def serTail (lvl : Nat) : List JVal → List Char
  | [] => []
  | v :: vs => ',' :: '\n' :: pad lvl ++ serVal lvl v ++ serTail lvl vs
/-- Serialize the remaining object entries. -/
def serFTail (lvl : Nat) : List (List Char × JVal) → List Char
  | [] => []
  | kv :: fs => ',' :: '\n' :: pad lvl ++ serEntry lvl kv ++ serFTail lvl fs
end

/-- `_write_oauth_data`: the file text after the atomic replace is the
serialized record plus the trailing newline the code writes. -/
def dumpJson (v : JVal) : List Char := serVal 0 (canon v) ++ ['\n']

/-- JSON whitespace accepted by the decoder. -/
def jsonWs (c : Char) : Bool :=
  c.toNat = 32 || c.toNat = 9 || c.toNat = 10 || c.toNat = 13

/-- Skip leading JSON whitespace. -/
def skipWs : List Char → List Char
  | [] => []
  | c :: cs => if jsonWs c then skipWs cs else c :: cs

/-- Hex digit value (both cases, as the decoder accepts). -/
def hexVal (c : Char) : Option Nat :=
  if 48 ≤ c.toNat ∧ c.toNat ≤ 57 then some (c.toNat - 48)
  else if 97 ≤ c.toNat ∧ c.toNat ≤ 102 then some (c.toNat - 87)
  else if 65 ≤ c.toNat ∧ c.toNat ≤ 70 then some (c.toNat - 55)
  else none

/-- Value of a four-digit hex escape. -/
def hex4 (c1 c2 c3 c4 : Char) : Option Nat :=
  match hexVal c1, hexVal c2, hexVal c3, hexVal c4 with
  | some n1, some n2, some n3, some n4 => some (((n1 * 16 + n2) * 16 + n3) * 16 + n4)
  | _, _, _, _ => none

/-- The decoder's escape table (`BACKSLASH` in `json/decoder.py`): the
two-character escapes other than `\u`. -/
def escCode (e : Char) : Option Char :=
  if e = '"' then some '"'
  else if e = '\\' then some '\\'
  else if e = '/' then some '/'
  else if e = 'b' then some (Char.ofNat 8)
  else if e = 'f' then some (Char.ofNat 12)
  else if e = 'n' then some (Char.ofNat 10)
  else if e = 'r' then some (Char.ofNat 13)
  else if e = 't' then some (Char.ofNat 9)
  else none

/-- Decode the four hex digits after `\u`, joining a surrogate pair into one
code point; a lone surrogate has no counterpart in the embedding's
scalar-value character type (and the printer never emits one), so it is
rejected here rather than materialized. -/
def uEscape (r1 : List Char) : Option (Nat × List Char) :=
  match r1 with
  | c1 :: c2 :: c3 :: c4 :: r2 =>
    match hex4 c1 c2 c3 c4 with
    | some n =>
      if 55296 ≤ n ∧ n ≤ 56319 then
        match r2 with
        | b1 :: b2 :: d1 :: d2 :: d3 :: d4 :: r3 =>
          if b1 = '\\' ∧ b2 = 'u' then
            match hex4 d1 d2 d3 d4 with
            | some n2 =>
              if 56320 ≤ n2 ∧ n2 ≤ 57343 then
                some (65536 + (n - 55296) * 1024 + (n2 - 56320), r3)
              else none
            | none => none
          else none
        | _ => none
      else if 56320 ≤ n ∧ n ≤ 57343 then none
      else some (n, r2)
    | none => none
  | _ => none

/-- Decode a JSON string body after the opening quote: ends at the closing
quote, one character per escape or literal, rejecting raw control characters
as the strict decoder does.  The fuel only keeps the recursion structural:
every step consumes at least one input character, so the wrapper's
`length + 1` never runs out. -/
def parseStrF : Nat → List Char → Option (List Char × List Char)
  | 0, _ => none
  | _ + 1, [] => none
  | f + 1, c :: r =>
    if c = '"' then some ([], r)
    else if c = '\\' then
      match r with
      | [] => none
      | e :: r1 =>
        if e = 'u' then
          match uEscape r1 with
          | some (n, r2) => (parseStrF f r2).map (fun p => (Char.ofNat n :: p.1, p.2))
          | none => none
        else
          match escCode e with
          | some d => (parseStrF f r1).map (fun p => (d :: p.1, p.2))
          | none => none
    else if c.toNat < 32 then none
    else (parseStrF f r).map (fun p => (c :: p.1, p.2))

/-- `scanstring`: decode a string body from after the opening quote. -/
def parseStr (l : List Char) : Option (List Char × List Char) :=
  parseStrF (l.length + 1) l

/-- Digit run folded onto an accumulator. -/
def digitsAcc (acc : Nat) : List Char → Nat × List Char
  | [] => (acc, [])
  | c :: cs => if isDigitChar c then digitsAcc (acc * 10 + (c.toNat - 48)) cs else (acc, c :: cs)

/-- Decode a JSON natural number: `0` alone, or a nonzero leading digit
followed by a maximal digit run (the grammar forbids leading zeros). -/
def parseNat : List Char → Option (Nat × List Char)
  | [] => none
  | c :: cs =>
    if c.toNat = 48 then some (0, cs)
    else if isDigitChar c then some (digitsAcc (c.toNat - 48) cs)
    else none

/-- From a position where a quoted object key must start: the key and the
text after the following colon. -/
def keyColon (l : List Char) : Option (List Char × List Char) :=
  match l with
  | [] => none
  | c :: r =>
    if c = '"' then
      match parseStr r with
      | some (k, r2) =>
        match skipWs r2 with
        | [] => none
        | c3 :: r3 => if c3 = ':' then some (k, r3) else none
      | none => none
    else none

/-- Match a three-character keyword tail (`ull`, `rue`). -/
def lit3 (a b c : Char) (v : JVal) : List Char → Option (JVal × List Char)
  | e1 :: e2 :: e3 :: r2 => if e1 = a ∧ e2 = b ∧ e3 = c then some (v, r2) else none
  | _ => none

/-- Match a four-character keyword tail (`alse`). -/
def lit4 (a b c d : Char) (v : JVal) : List Char → Option (JVal × List Char)
  | e1 :: e2 :: e3 :: e4 :: r2 =>
    if e1 = a ∧ e2 = b ∧ e3 = c ∧ e4 = d then some (v, r2) else none
  | _ => none

mutual
/-- Decode one JSON value; the head of the input is the value's first
character.  The fuel only bounds recursion depth and is instantiated by
`loadJson` with the input length, which suffices. -/
def parseVal : Nat → List Char → Option (JVal × List Char)
  | 0, _ => none
  | _ + 1, [] => none
  | f + 1, c :: r =>
    if c = '\x7b' then parseObjBody f (skipWs r)
    else if c = '[' then parseArrBody f (skipWs r)
    else if c = '"' then
      match parseStr r with
      | some (s2, r2) => some (.str s2, r2)
      | none => none
    else if c = '-' then
      match parseNat r with
      | some (n, r2) => some (.int (-(n : Int)), r2)
      | none => none
    else if isDigitChar c then
      match parseNat (c :: r) with
      | some (n, r2) => some (.int (n : Int), r2)
      | none => none
    else if c = 'n' then lit3 'u' 'l' 'l' .null r
    else if c = 't' then lit3 'r' 'u' 'e' (.bool true) r
    else if c = 'f' then lit4 'a' 'l' 's' 'e' (.bool false) r
    else none
/-- After an object's opening brace and whitespace: the closing brace, or the
first `"key": value` entry followed by the remaining entries. -/
def parseObjBody : Nat → List Char → Option (JVal × List Char)
  | _, [] => none
  | f, c2 :: r2 =>
    if c2 = '\x7d' then some (.obj [], r2)
    else
      match keyColon (c2 :: r2) with
      | some (k, r3) =>
        match parseVal f (skipWs r3) with
        | some (v, r5) =>
          match parseFieldsRest f (skipWs r5) with
          | some (fs, r6) => some (.obj ((k, v) :: fs), r6)
          | none => none
        | none => none
      | none => none
/-- After an array's opening bracket and whitespace: the closing bracket, or
the first item followed by the remaining items. -/
def parseArrBody : Nat → List Char → Option (JVal × List Char)
  | _, [] => none
  | f, c2 :: r2 =>
    if c2 = ']' then some (.arr [], r2)
    else
      match parseVal f (c2 :: r2) with
      | some (v, r3) =>
        match parseItemsRest f (skipWs r3) with
        | some (vs, r4) => some (.arr (v :: vs), r4)
        | none => none
      | none => none
/-- After one array item: a comma and the next item, or the closing
bracket. -/
def parseItemsRest : Nat → List Char → Option (List JVal × List Char)
  | 0, _ => none
  | _ + 1, [] => none
  | f + 1, c :: r =>
    if c = ']' then some ([], r)
    else if c = ',' then
      match parseVal f (skipWs r) with
      | some (v, r2) =>
        match parseItemsRest f (skipWs r2) with
        | some (vs, r3) => some (v :: vs, r3)
        | none => none
      | none => none
    else none
/-- After one object entry: a comma and the next `"key": value`, or the
closing brace. -/
def parseFieldsRest : Nat → List Char → Option (List (List Char × JVal) × List Char)
  | 0, _ => none
  | _ + 1, [] => none
  | f + 1, c :: r =>
    if c = '\x7d' then some ([], r)
    else if c = ',' then
      match keyColon (skipWs r) with
      | some (k, r3) =>
        match parseVal f (skipWs r3) with
        | some (v, r5) =>
          match parseFieldsRest f (skipWs r5) with
          | some (fs, r6) => some ((k, v) :: fs, r6)
          | none => none
        | none => none
      | none => none
    else none
end

/-- `_load_oauth_data`'s `json.load`: skip whitespace, decode one value,
require only whitespace after it. -/
def loadJson (text : List Char) : Option JVal :=
  match parseVal (text.length + 1) (skipWs text) with
  | some (v, rest) => if skipWs rest = [] then some v else none
  | none => none

/-! ### Character and whitespace facts -/

theorem char_scalar (c : Char) : c.toNat < 55296 ∨ (57343 < c.toNat ∧ c.toNat < 1114112) := by
  rcases c.valid with h | ⟨h1, h2⟩
  · exact Or.inl h
  · exact Or.inr ⟨h1, h2⟩

theorem toNat_ofNat_valid {n : Nat} (h : n < 55296 ∨ (57343 < n ∧ n < 1114112)) :
    (Char.ofNat n).toNat = n := by
  rw [Char.ofNat, dif_pos]
  · rfl
  · rcases h with h | h
    · exact Or.inl h
    · exact Or.inr h

theorem char_ne_of_toNat_ne {c d : Char} (h : c.toNat ≠ d.toNat) : c ≠ d :=
  fun he => h (he ▸ rfl)

theorem skipWs_cons_ws {c : Char} {l : List Char} (h : jsonWs c = true) :
    skipWs (c :: l) = skipWs l := by
  simp [skipWs, h]

theorem skipWs_cons_nws {c : Char} {l : List Char} (h : jsonWs c = false) :
    skipWs (c :: l) = c :: l := by
  simp [skipWs, h]

theorem skipWs_pad (n : Nat) (l : List Char) : skipWs (pad n ++ l) = skipWs l := by
  rw [pad]
  induction 2 * n with
  | zero => rfl
  | succ m ih =>
    rw [List.replicate_succ, List.cons_append, skipWs_cons_ws (by decide)]
    exact ih

/-! ### Decimal digits round trip -/

theorem digitChar_toNat {n : Nat} (h : n < 10) : (digitChar n).toNat = 48 + n := by
  interval_cases n <;> rfl

theorem isDigitChar_digitChar {n : Nat} (h : n < 10) : isDigitChar (digitChar n) = true := by
  simp only [isDigitChar, digitChar_toNat h, Bool.and_eq_true, decide_eq_true_eq]
  omega

theorem natRepr_digits : ∀ n : Nat, ∀ c ∈ natRepr n, isDigitChar c = true := by
  intro n
  induction n using Nat.strong_induction_on with
  | _ n ih =>
    by_cases h : n < 10
    · rw [natRepr_small h]
      intro c hc
      rw [List.mem_singleton] at hc
      exact hc ▸ isDigitChar_digitChar h
    · rw [natRepr_big (by omega)]
      intro c hc
      rcases List.mem_append.mp hc with hc | hc
      · exact ih (n / 10) (Nat.div_lt_self (by omega) (by omega)) c hc
      · rw [List.mem_singleton] at hc
        exact hc ▸ isDigitChar_digitChar (Nat.mod_lt n (by omega))

theorem natRepr_head : ∀ n : Nat, ∃ c t, natRepr n = c :: t ∧ isDigitChar c = true ∧
    (1 ≤ n → c.toNat ≠ 48) := by
  intro n
  induction n using Nat.strong_induction_on with
  | _ n ih =>
    by_cases h : n < 10
    · refine ⟨digitChar n, [], natRepr_small h, isDigitChar_digitChar h, fun h1 => ?_⟩
      rw [digitChar_toNat h]
      omega
    · obtain ⟨c, t, heq, hd, hz⟩ := ih (n / 10) (Nat.div_lt_self (by omega) (by omega))
      refine ⟨c, t ++ [digitChar (n % 10)], ?_, hd, fun _ => hz (by omega)⟩
      rw [natRepr_big (by omega), heq]
      rfl

/-- Whether the head of a remainder would extend a digit run. -/
def digHead : List Char → Bool
  | [] => false
  | c :: _ => isDigitChar c

theorem digitsAcc_append : ∀ (ds : List Char), (∀ c ∈ ds, isDigitChar c = true) →
    ∀ (rest : List Char), digHead rest = false → ∀ a,
    digitsAcc a (ds ++ rest) = (List.foldl (fun a c => a * 10 + (c.toNat - 48)) a ds, rest) := by
  intro ds
  induction ds with
  | nil =>
    intro _ rest hr a
    cases rest with
    | nil => rfl
    | cons c cs =>
      rw [digHead] at hr
      simp [digitsAcc, hr]
  | cons d ds ih =>
    intro h rest hr a
    rw [List.cons_append]
    rw [digitsAcc, if_pos (h d (List.mem_cons_self d ds)), List.foldl_cons]
    exact ih (fun c hc => h c (List.mem_cons_of_mem d hc)) rest hr _

theorem natRepr_fold : ∀ n a : Nat,
    List.foldl (fun a c => a * 10 + (c.toNat - 48)) a (natRepr n) =
      a * 10 ^ (natRepr n).length + n := by
  intro n
  induction n using Nat.strong_induction_on with
  | _ n ih =>
    intro a
    by_cases h : n < 10
    · rw [natRepr_small h]
      simp only [List.foldl_cons, List.foldl_nil, List.length_singleton, pow_one,
        digitChar_toNat h]
      omega
    · rw [natRepr_big (by omega), List.foldl_append, List.foldl_cons, List.foldl_nil,
        ih (n / 10) (Nat.div_lt_self (by omega) (by omega)) a, List.length_append,
        List.length_singleton, pow_succ, digitChar_toNat (Nat.mod_lt n (by omega))]
      have hA : a * (10 ^ (natRepr (n / 10)).length * 10) =
          a * 10 ^ (natRepr (n / 10)).length * 10 := by ring
      rw [hA]
      generalize a * 10 ^ (natRepr (n / 10)).length = A
      omega

theorem parseNat_natRepr {n : Nat} {rest : List Char} (hr : digHead rest = false) :
    parseNat (natRepr n ++ rest) = some (n, rest) := by
  by_cases h0 : n = 0
  · subst h0
    rw [natRepr_small (by omega)]
    rw [List.cons_append, parseNat, if_pos (by rfl), List.nil_append]
  · obtain ⟨c, t, heq, hd, hz⟩ := natRepr_head n
    have hz : c.toNat ≠ 48 := hz (by omega)
    rw [heq, List.cons_append, parseNat, if_neg hz, if_pos hd]
    have hts : ∀ x ∈ t, isDigitChar x = true := by
      intro x hx
      exact natRepr_digits n x (heq ▸ List.mem_cons_of_mem c hx)
    rw [digitsAcc_append t hts rest hr]
    have hf := natRepr_fold n 0
    rw [heq, List.foldl_cons] at hf
    simp only [Nat.zero_mul, Nat.zero_add, zero_mul, zero_add] at hf
    rw [hf]

/-! ### Hex digits round trip -/

theorem hexVal_hexDig {n : Nat} (h : n < 16) : hexVal (hexDig n) = some n := by
  interval_cases n <;> rfl

theorem hex4_parts {n : Nat} (h : n < 65536) :
    hex4 (hexDig (n / 4096 % 16)) (hexDig (n / 256 % 16)) (hexDig (n / 16 % 16))
      (hexDig (n % 16)) = some n := by
  rw [hex4, hexVal_hexDig (Nat.mod_lt _ (by omega)), hexVal_hexDig (Nat.mod_lt _ (by omega)),
    hexVal_hexDig (Nat.mod_lt _ (by omega)), hexVal_hexDig (Nat.mod_lt _ (by omega))]
  have : ((n / 4096 % 16 * 16 + n / 256 % 16) * 16 + n / 16 % 16) * 16 + n % 16 = n := by
    omega
  show some (((n / 4096 % 16 * 16 + n / 256 % 16) * 16 + n / 16 % 16) * 16 + n % 16) = some n
  rw [this]

/-! ### Escaped strings round trip -/

theorem parseStrF_quote (f : Nat) (r : List Char) :
    parseStrF (f + 1) ('"' :: r) = some ([], r) := by
  rw [parseStrF.eq_def]
  simp

theorem parseStrF_esc_step (f : Nat) (e : Char) (r : List Char) (he : e ≠ 'u') :
    parseStrF (f + 1) ('\\' :: e :: r) =
      match escCode e with
      | some d => (parseStrF f r).map (fun p => (d :: p.1, p.2))
      | none => none := by
  rw [parseStrF, if_neg (by decide : ¬('\\' : Char) = '"'), if_pos rfl]
  simp only [if_neg he]

theorem parseStrF_u (f : Nat) (r : List Char) :
    parseStrF (f + 1) ('\\' :: 'u' :: r) =
      match uEscape r with
      | some (n, r2) => (parseStrF f r2).map (fun p => (Char.ofNat n :: p.1, p.2))
      | none => none := by
  rw [parseStrF, if_neg (by decide : ¬('\\' : Char) = '"'), if_pos rfl]
  simp

theorem parseStrF_plain (f : Nat) (c : Char) (r : List Char) (h1 : c ≠ '"') (h2 : c ≠ '\\')
    (h3 : ¬c.toNat < 32) :
    parseStrF (f + 1) (c :: r) = (parseStrF f r).map (fun p => (c :: p.1, p.2)) := by
  rw [parseStrF.eq_def]
  simp only [if_neg h1, if_neg h2, if_neg h3]

theorem uEscape_bmp {n : Nat} (h : n < 65536) (hs : ¬(55296 ≤ n ∧ n ≤ 57343))
    (r : List Char) : uEscape (hexDigits4 n ++ r) = some (n, r) := by
  rw [hexDigits4]
  simp only [List.cons_append, List.nil_append, uEscape, hex4_parts h]
  rw [if_neg (by omega : ¬(55296 ≤ n ∧ n ≤ 56319)),
    if_neg (by omega : ¬(56320 ≤ n ∧ n ≤ 57343))]

theorem uEscape_pair {n1 n2 : Nat} (h1 : 55296 ≤ n1 ∧ n1 ≤ 56319)
    (h2 : 56320 ≤ n2 ∧ n2 ≤ 57343) (r : List Char) :
    uEscape (hexDigits4 n1 ++ '\\' :: 'u' :: (hexDigits4 n2 ++ r)) =
      some (65536 + (n1 - 55296) * 1024 + (n2 - 56320), r) := by
  rw [hexDigits4, hexDigits4]
  simp only [List.cons_append, List.nil_append, uEscape, hex4_parts (by omega : n1 < 65536)]
  rw [if_pos h1]
  simp [hex4_parts (by omega : n2 < 65536), h1, h2]

theorem escString_cons (c : Char) (s : List Char) :
    escString (c :: s) = escChar c ++ escString s := by
  simp [escString]

theorem escChar_len (c : Char) : 1 ≤ (escChar c).length := by
  rw [escChar]
  split_ifs <;> simp [hexDigits4]

theorem escString_len (s : List Char) : s.length ≤ (escString s).length := by
  induction s with
  | nil => simp [escString]
  | cons c s ih =>
    rw [escString_cons, List.length_append, List.length_cons]
    have := escChar_len c
    omega

theorem parseStrF_esc : ∀ (s : List Char) (f : Nat) (rest : List Char), s.length < f →
    parseStrF f (escString s ++ '"' :: rest) = some (s, rest) := by
  intro s
  induction s with
  | nil =>
    intro f rest hf
    match f, hf with
    | f + 1, _ =>
      show parseStrF (f + 1) ('"' :: rest) = some ([], rest)
      exact parseStrF_quote f rest
  | cons c s ih =>
    intro f rest hf
    match f, hf with
    | f + 1, _ =>
      have hsf : s.length < f := by
        have : (c :: s).length = s.length + 1 := rfl
        omega
      rw [escString_cons, List.append_assoc]
      by_cases h1 : c = '"'
      · subst h1
        rw [show escChar '"' = ['\\', '"'] from rfl, List.cons_append, List.cons_append,
          List.nil_append, parseStrF_esc_step f '"' _ (by decide)]
        simp only [escCode, if_pos rfl]
        rw [ih f rest hsf]
        rfl
      · by_cases h2 : c = '\\'
        · subst h2
          rw [show escChar '\\' = ['\\', '\\'] from rfl, List.cons_append, List.cons_append,
            List.nil_append, parseStrF_esc_step f '\\' _ (by decide)]
          simp [escCode, ih f rest hsf]
        · by_cases h3 : c.toNat = 8
          · rw [escChar, if_neg h1, if_neg h2, if_pos h3, List.cons_append, List.cons_append,
              List.nil_append, parseStrF_esc_step f 'b' _ (by decide)]
            have hc : Char.ofNat 8 = c := by rw [← h3, Char.ofNat_toNat]
            simp [escCode, ih f rest hsf]
            exact hc
          · by_cases h4 : c.toNat = 9
            · rw [escChar, if_neg h1, if_neg h2, if_neg h3, if_pos h4, List.cons_append,
                List.cons_append, List.nil_append, parseStrF_esc_step f 't' _ (by decide)]
              have hc : Char.ofNat 9 = c := by rw [← h4, Char.ofNat_toNat]
              simp [escCode, ih f rest hsf]
              exact hc
            · by_cases h5 : c.toNat = 10
              · rw [escChar, if_neg h1, if_neg h2, if_neg h3, if_neg h4, if_pos h5,
                  List.cons_append, List.cons_append, List.nil_append,
                  parseStrF_esc_step f 'n' _ (by decide)]
                have hc : Char.ofNat 10 = c := by rw [← h5, Char.ofNat_toNat]
                simp [escCode, ih f rest hsf]
                exact hc
              · by_cases h6 : c.toNat = 12
                · rw [escChar, if_neg h1, if_neg h2, if_neg h3, if_neg h4, if_neg h5, if_pos h6,
                    List.cons_append, List.cons_append, List.nil_append,
                    parseStrF_esc_step f 'f' _ (by decide)]
                  have hc : Char.ofNat 12 = c := by rw [← h6, Char.ofNat_toNat]
                  simp [escCode, ih f rest hsf]
                  exact hc
                · by_cases h7 : c.toNat = 13
                  · rw [escChar, if_neg h1, if_neg h2, if_neg h3, if_neg h4, if_neg h5,
                      if_neg h6, if_pos h7, List.cons_append, List.cons_append, List.nil_append,
                      parseStrF_esc_step f 'r' _ (by decide)]
                    have hc : Char.ofNat 13 = c := by rw [← h7, Char.ofNat_toNat]
                    simp [escCode, ih f rest hsf]
                    exact hc
                  · by_cases h8 : 32 ≤ c.toNat ∧ c.toNat ≤ 126
                    · rw [escChar, if_neg h1, if_neg h2, if_neg h3, if_neg h4, if_neg h5,
                        if_neg h6, if_neg h7, if_pos h8, List.cons_append, List.nil_append,
                        parseStrF_plain f c _ h1 h2 (by omega)]
                      simp [ih f rest hsf]
                    · by_cases h9 : c.toNat < 65536
                      · rw [escChar, if_neg h1, if_neg h2, if_neg h3, if_neg h4, if_neg h5,
                          if_neg h6, if_neg h7, if_neg h8, if_pos h9]
                        have hval := char_scalar c
                        rw [List.cons_append, List.cons_append, parseStrF_u,
                          uEscape_bmp h9 (by omega)]
                        simp [ih f rest hsf, Char.ofNat_toNat]
                      · rw [escChar, if_neg h1, if_neg h2, if_neg h3, if_neg h4, if_neg h5,
                          if_neg h6, if_neg h7, if_neg h8, if_neg h9]
                        have hval := char_scalar c
                        simp only [List.cons_append, List.append_assoc]
                        rw [parseStrF_u,
                          uEscape_pair
                            (by omega : 55296 ≤ 55296 + (c.toNat - 65536) / 1024 ∧
                              55296 + (c.toNat - 65536) / 1024 ≤ 56319)
                            (by omega : 56320 ≤ 56320 + (c.toNat - 65536) % 1024 ∧
                              56320 + (c.toNat - 65536) % 1024 ≤ 57343)]
                        have harith : 65536 + (55296 + (c.toNat - 65536) / 1024 - 55296) * 1024 +
                            (56320 + (c.toNat - 65536) % 1024 - 56320) = c.toNat := by
                          omega
                        rw [harith]
                        simp [ih f rest hsf, Char.ofNat_toNat]

theorem parseStr_esc (s rest : List Char) :
    parseStr (escString s ++ '"' :: rest) = some (s, rest) := by
  unfold parseStr
  refine parseStrF_esc s _ rest ?_
  have h1 := escString_len s
  simp only [List.length_append, List.length_cons]
  omega

/-! ### Serializer output shape -/

theorem serVal_head (lvl : Nat) (v : JVal) :
    ∃ c t, serVal lvl v = c :: t ∧ jsonWs c = false ∧ c ≠ ']' := by
  cases v with
  | null => exact ⟨'n', ['u', 'l', 'l'], by simp [serVal]; rfl, by decide, by decide⟩
  | bool b =>
    cases b with
    | true => exact ⟨'t', ['r', 'u', 'e'], by simp [serVal]; rfl, by decide, by decide⟩
    | false => exact ⟨'f', ['a', 'l', 's', 'e'], by simp [serVal]; rfl, by decide, by decide⟩
  | int n =>
    by_cases hn : n < 0
    · exact ⟨'-', natRepr (-n).toNat, by simp [serVal, intRepr, hn], by decide, by decide⟩
    · obtain ⟨c, t, heq, hd, _⟩ := natRepr_head n.toNat
      refine ⟨c, t, ?_, ?_, ?_⟩
      · rw [show serVal lvl (JVal.int n) = intRepr n by simp [serVal], intRepr, if_neg hn, heq]
      · simp only [isDigitChar, Bool.and_eq_true, decide_eq_true_eq] at hd
        simp only [jsonWs, Bool.or_eq_false_iff, decide_eq_false_iff_not]
        omega
      · intro he
        rw [he] at hd
        exact absurd hd (by decide)
  | str s => exact ⟨'"', escString s ++ ['"'], by simp [serVal], by decide, by decide⟩
  | arr l =>
    cases l with
    | nil => exact ⟨'[', [']'], by simp [serVal], by decide, by decide⟩
    | cons v vs =>
      exact ⟨'[', '\n' :: pad (lvl + 1) ++ serVal (lvl + 1) v ++ serTail (lvl + 1) vs ++
        '\n' :: pad lvl ++ [']'], by simp [serVal], by decide, by decide⟩
  | obj m =>
    cases m with
    | nil => exact ⟨'\x7b', ['\x7d'], by simp [serVal], by decide, by decide⟩
    | cons kv fs =>
      exact ⟨'\x7b', '\n' :: pad (lvl + 1) ++ serEntry (lvl + 1) kv ++ serFTail (lvl + 1) fs ++
        '\n' :: pad lvl ++ ['\x7d'], by simp [serVal], by decide, by decide⟩

theorem skipWs_nl_pad (n : Nat) (l : List Char) : skipWs ('\n' :: (pad n ++ l)) = skipWs l := by
  rw [skipWs_cons_ws (by decide), skipWs_pad]

theorem skipWs_serVal (m : Nat) (v : JVal) (X : List Char) :
    skipWs (serVal m v ++ X) = serVal m v ++ X := by
  obtain ⟨c, t, heq, hws, _⟩ := serVal_head m v
  rw [heq, List.cons_append, skipWs_cons_nws hws]

theorem digHead_serTail (m : Nat) (vs : List JVal) (X : List Char) :
    digHead (serTail m vs ++ '\n' :: X) = false := by
  cases vs with
  | nil => simp [serTail, digHead, isDigitChar]
  | cons v vs => simp [serTail, digHead, isDigitChar]

theorem digHead_serFTail (m : Nat) (fs : List (List Char × JVal)) (X : List Char) :
    digHead (serFTail m fs ++ '\n' :: X) = false := by
  cases fs with
  | nil => simp [serFTail, digHead, isDigitChar]
  | cons kv fs => simp [serFTail, digHead, isDigitChar]

theorem keyColon_ser (k X : List Char) :
    keyColon ('"' :: (escString k ++ '"' :: ':' :: X)) = some (k, X) := by
  simp only [keyColon, if_pos rfl]
  rw [parseStr_esc k (':' :: X)]
  simp [skipWs_cons_nws (show jsonWs ':' = false from by decide)]

theorem serTail_len (m : Nat) (l : List JVal)
    (h : ∀ v ∈ l, ∀ lvl, jsize v ≤ (serVal lvl v).length) :
    jsizeL l ≤ (serTail m l).length := by
  induction l with
  | nil => simp [serTail, jsizeL]
  | cons v vs ih =>
    have h1 := h v (List.mem_cons_self v vs)
    have h2 := ih (fun x hx => h x (List.mem_cons_of_mem v hx))
    simp only [serTail, jsizeL, List.length_cons, List.length_append]
    have := h1 m
    omega

theorem serFTail_len (m : Nat) (l : List (List Char × JVal))
    (h : ∀ kv ∈ l, ∀ lvl, jsize kv.2 ≤ (serVal lvl kv.2).length) :
    jsizeF l ≤ (serFTail m l).length := by
  induction l with
  | nil => simp [serFTail, jsizeF]
  | cons kv fs ih =>
    have h1 := (h kv (List.mem_cons_self kv fs)) m
    have h2 := ih (fun x hx => h x (List.mem_cons_of_mem kv hx))
    simp only [serFTail, serEntry, jsizeF, List.length_cons, List.length_append]
    omega

theorem serVal_len : ∀ (v : JVal) (lvl : Nat), jsize v ≤ (serVal lvl v).length := by
  refine JVal.indStrong (fun v => ∀ lvl, jsize v ≤ (serVal lvl v).length) ?_ ?_ ?_ ?_ ?_ ?_
  · intro lvl
    simp [serVal, jsize]
    decide
  · intro b lvl
    cases b <;> (simp [serVal, jsize]; decide)
  · intro n lvl
    simp only [serVal, jsize, intRepr]
    by_cases hn : n < 0
    · simp [hn]
    · rw [if_neg hn]
      obtain ⟨c, t, heq, _, _⟩ := natRepr_head n.toNat
      rw [heq]
      simp
  · intro s lvl
    simp [serVal, jsize]
  · intro l h lvl
    cases l with
    | nil => simp [serVal, jsize, jsizeL]
    | cons v vs =>
      have h1 := (h v (List.mem_cons_self v vs)) (lvl + 1)
      have h2 := serTail_len (lvl + 1) vs (fun x hx m => h x (List.mem_cons_of_mem v hx) m)
      simp only [serVal, jsize, jsizeL, List.length_cons, List.length_append]
      omega
  · intro m h lvl
    cases m with
    | nil => simp [serVal, jsize, jsizeF]
    | cons kv fs =>
      have h1 := (h kv (List.mem_cons_self kv fs)) (lvl + 1)
      have h2 := serFTail_len (lvl + 1) fs (fun x hx m2 => h x (List.mem_cons_of_mem kv hx) m2)
      simp only [serVal, serEntry, jsize, jsizeF, List.length_cons, List.length_append]
      omega

/-! ### Value-parser dispatch on the serializer's head characters -/

theorem parseVal_obj_step (g : Nat) (r : List Char) :
    parseVal (g + 1) ('\x7b' :: r) = parseObjBody g (skipWs r) := by
  rw [parseVal, if_pos rfl]

theorem parseVal_arr_step (g : Nat) (r : List Char) :
    parseVal (g + 1) ('[' :: r) = parseArrBody g (skipWs r) := by
  rw [parseVal, if_neg (by decide : ¬('[' : Char) = '\x7b'), if_pos rfl]

theorem parseVal_str_step (g : Nat) (r : List Char) :
    parseVal (g + 1) ('"' :: r) =
      match parseStr r with
      | some (s2, r2) => some (.str s2, r2)
      | none => none := by
  rw [parseVal, if_neg (by decide : ¬('"' : Char) = '\x7b'),
    if_neg (by decide : ¬('"' : Char) = '['), if_pos rfl]

theorem parseVal_neg_step (g : Nat) (r : List Char) :
    parseVal (g + 1) ('-' :: r) =
      match parseNat r with
      | some (n, r2) => some (.int (-(n : Int)), r2)
      | none => none := by
  rw [parseVal, if_neg (by decide : ¬('-' : Char) = '\x7b'),
    if_neg (by decide : ¬('-' : Char) = '['), if_neg (by decide : ¬('-' : Char) = '"'),
    if_pos rfl]

theorem digit_char_ne (c : Char) (h : isDigitChar c = true) :
    c ≠ '\x7b' ∧ c ≠ '[' ∧ c ≠ '"' ∧ c ≠ '-' := by
  refine ⟨?_, ?_, ?_, ?_⟩ <;> (intro he; rw [he] at h; exact absurd h (by decide))

theorem parseVal_digit_step (g : Nat) (c : Char) (r : List Char) (h : isDigitChar c = true) :
    parseVal (g + 1) (c :: r) =
      match parseNat (c :: r) with
      | some (n, r2) => some (.int (n : Int), r2)
      | none => none := by
  obtain ⟨h1, h2, h3, h4⟩ := digit_char_ne c h
  rw [parseVal, if_neg h1, if_neg h2, if_neg h3, if_neg h4, if_pos h]

theorem parseVal_null_lit (g : Nat) (r : List Char) :
    parseVal (g + 1) ('n' :: 'u' :: 'l' :: 'l' :: r) = some (.null, r) := by
  rw [parseVal, if_neg (by decide : ¬('n' : Char) = '\x7b'),
    if_neg (by decide : ¬('n' : Char) = '['), if_neg (by decide : ¬('n' : Char) = '"'),
    if_neg (by decide : ¬('n' : Char) = '-'), if_neg (by decide : ¬isDigitChar 'n' = true),
    if_pos rfl]
  simp [lit3]

theorem parseVal_true_lit (g : Nat) (r : List Char) :
    parseVal (g + 1) ('t' :: 'r' :: 'u' :: 'e' :: r) = some (.bool true, r) := by
  rw [parseVal, if_neg (by decide : ¬('t' : Char) = '\x7b'),
    if_neg (by decide : ¬('t' : Char) = '['), if_neg (by decide : ¬('t' : Char) = '"'),
    if_neg (by decide : ¬('t' : Char) = '-'), if_neg (by decide : ¬isDigitChar 't' = true),
    if_neg (by decide : ¬('t' : Char) = 'n'), if_pos rfl]
  simp [lit3]

theorem parseVal_false_lit (g : Nat) (r : List Char) :
    parseVal (g + 1) ('f' :: 'a' :: 'l' :: 's' :: 'e' :: r) = some (.bool false, r) := by
  rw [parseVal, if_neg (by decide : ¬('f' : Char) = '\x7b'),
    if_neg (by decide : ¬('f' : Char) = '['), if_neg (by decide : ¬('f' : Char) = '"'),
    if_neg (by decide : ¬('f' : Char) = '-'), if_neg (by decide : ¬isDigitChar 'f' = true),
    if_neg (by decide : ¬('f' : Char) = 'n'), if_neg (by decide : ¬('f' : Char) = 't'),
    if_pos rfl]
  simp [lit4]

/-! ### The round trip: parsing the serializer's output returns the value -/

theorem parse_ser : ∀ f : Nat,
    (∀ v lvl rest, jsize v ≤ f → digHead rest = false →
      parseVal f (serVal lvl v ++ rest) = some (v, rest)) ∧
    (∀ vs lvl rest, jsizeL vs < f →
      parseItemsRest f (skipWs (serTail (lvl + 1) vs ++ '\n' :: (pad lvl ++ ']' :: rest))) =
        some (vs, rest)) ∧
    (∀ fs lvl rest, jsizeF fs < f →
      parseFieldsRest f (skipWs (serFTail (lvl + 1) fs ++ '\n' :: (pad lvl ++ '\x7d' :: rest))) =
        some (fs, rest)) := by
  intro f
  induction f using Nat.strong_induction_on with
  | _ f ih =>
    refine ⟨?_, ?_, ?_⟩
    · intro v lvl rest hsz hdg
      cases f with
      | zero =>
        have := jsize_pos v
        omega
      | succ g =>
      cases v with
      | null =>
        rw [show serVal lvl JVal.null = cl "null" by simp [serVal]]
        show parseVal (g + 1) ('n' :: 'u' :: 'l' :: 'l' :: rest) = some (JVal.null, rest)
        rw [parseVal_null_lit]
      | bool b =>
        cases b with
        | true =>
          rw [show serVal lvl (JVal.bool true) = cl "true" by simp [serVal]]
          show parseVal (g + 1) ('t' :: 'r' :: 'u' :: 'e' :: rest) = some (JVal.bool true, rest)
          rw [parseVal_true_lit]
        | false =>
          rw [show serVal lvl (JVal.bool false) = cl "false" by simp [serVal]]
          show parseVal (g + 1) ('f' :: 'a' :: 'l' :: 's' :: 'e' :: rest) =
            some (JVal.bool false, rest)
          rw [parseVal_false_lit]
      | int n =>
        rw [show serVal lvl (JVal.int n) = intRepr n by simp [serVal], intRepr]
        by_cases hn : n < 0
        · rw [if_pos hn, List.cons_append, parseVal_neg_step, parseNat_natRepr hdg]
          simp [Int.toNat_of_nonneg (show (0 : Int) ≤ -n by omega)]
        · rw [if_neg hn]
          obtain ⟨c, t, heq, hd, _⟩ := natRepr_head n.toNat
          rw [heq, List.cons_append, parseVal_digit_step g c _ hd, ← List.cons_append, ← heq,
            parseNat_natRepr hdg]
          simp [Int.toNat_of_nonneg (show (0 : Int) ≤ n by omega)]
      | str s =>
        rw [show serVal lvl (JVal.str s) = '"' :: escString s ++ ['"'] by simp [serVal]]
        simp only [List.cons_append, List.append_assoc, List.singleton_append,
            List.nil_append]
        rw [parseVal_str_step, parseStr_esc]
      | arr l =>
        cases l with
        | nil =>
          rw [show serVal lvl (JVal.arr []) = ['[', ']'] by simp [serVal]]
          show parseVal (g + 1) ('[' :: ']' :: rest) = some (JVal.arr [], rest)
          rw [parseVal_arr_step, skipWs_cons_nws (by decide), parseArrBody, if_pos rfl]
        | cons v vs =>
          have hs0 : jsize v + jsizeL vs ≤ g := by
            simp only [jsize, jsizeL] at hsz
            omega
          have hs1 : jsize v ≤ g := by omega
          have hs2 : jsizeL vs < g := by
            have := jsize_pos v
            omega
          rw [show serVal lvl (JVal.arr (v :: vs)) = '[' :: '\n' :: pad (lvl + 1) ++
            serVal (lvl + 1) v ++ serTail (lvl + 1) vs ++ '\n' :: pad lvl ++ [']']
            by simp [serVal]]
          simp only [List.cons_append, List.append_assoc, List.singleton_append,
            List.nil_append]
          rw [parseVal_arr_step, skipWs_cons_ws (by decide), skipWs_pad, skipWs_serVal]
          obtain ⟨c, t, heq, hws, hne⟩ := serVal_head (lvl + 1) v
          rw [heq, List.cons_append, parseArrBody, if_neg hne, ← List.cons_append, ← heq]
          rw [(ih g (Nat.lt_succ_self g)).1 v (lvl + 1) _ hs1
            (digHead_serTail (lvl + 1) vs (pad lvl ++ ']' :: rest))]
          simp [(ih g (Nat.lt_succ_self g)).2.1 vs lvl rest hs2]
      | obj m =>
        cases m with
        | nil =>
          rw [show serVal lvl (JVal.obj []) = ['\x7b', '\x7d'] by simp [serVal]]
          show parseVal (g + 1) ('\x7b' :: '\x7d' :: rest) = some (JVal.obj [], rest)
          rw [parseVal_obj_step, skipWs_cons_nws (by decide), parseObjBody, if_pos rfl]
        | cons kv fs =>
          have hs0 : jsize kv.2 + jsizeF fs ≤ g := by
            simp only [jsize, jsizeF] at hsz
            omega
          have hs1 : jsize kv.2 ≤ g := by omega
          have hs2 : jsizeF fs < g := by
            have := jsize_pos kv.2
            omega
          rw [show serVal lvl (JVal.obj (kv :: fs)) = '\x7b' :: '\n' :: pad (lvl + 1) ++
            serEntry (lvl + 1) kv ++ serFTail (lvl + 1) fs ++ '\n' :: pad lvl ++ ['\x7d']
            by simp [serVal]]
          rw [show serEntry (lvl + 1) kv = '"' :: escString kv.1 ++ '"' :: ':' :: ' ' ::
            serVal (lvl + 1) kv.2 by simp [serEntry]]
          simp only [List.cons_append, List.append_assoc, List.singleton_append,
            List.nil_append]
          rw [parseVal_obj_step, skipWs_cons_ws (by decide), skipWs_pad,
            skipWs_cons_nws (by decide)]
          rw [parseObjBody, if_neg (by decide : ¬('"' : Char) = '\x7d'), keyColon_ser]
          simp only [skipWs_cons_ws (show jsonWs ' ' = true from by decide), skipWs_serVal]
          rw [(ih g (Nat.lt_succ_self g)).1 kv.2 (lvl + 1) _ hs1
            (digHead_serFTail (lvl + 1) fs (pad lvl ++ '\x7d' :: rest))]
          simp [(ih g (Nat.lt_succ_self g)).2.2 fs lvl rest hs2]
    · intro vs lvl rest hsz
      cases f with
      | zero => omega
      | succ g =>
      cases vs with
      | nil =>
        rw [show serTail (lvl + 1) ([] : List JVal) = [] by simp [serTail], List.nil_append,
          skipWs_cons_ws (by decide), skipWs_pad, skipWs_cons_nws (by decide)]
        rw [parseItemsRest, if_pos rfl]
      | cons v vs =>
        have hs0 : jsize v + jsizeL vs < g + 1 := by
          simp only [jsizeL] at hsz
          omega
        have hs1 : jsize v ≤ g := by
          have := jsize_pos v
          omega
        have hs2 : jsizeL vs < g := by
          have := jsize_pos v
          omega
        rw [show serTail (lvl + 1) (v :: vs) = ',' :: '\n' :: pad (lvl + 1) ++
          serVal (lvl + 1) v ++ serTail (lvl + 1) vs by simp [serTail]]
        simp only [List.cons_append, List.append_assoc, List.nil_append]
        rw [skipWs_cons_nws (by decide), parseItemsRest,
          if_neg (by decide : ¬(',' : Char) = ']'), if_pos rfl,
          skipWs_cons_ws (by decide), skipWs_pad, skipWs_serVal]
        rw [(ih g (Nat.lt_succ_self g)).1 v (lvl + 1) _ hs1
          (digHead_serTail (lvl + 1) vs (pad lvl ++ ']' :: rest))]
        simp [(ih g (Nat.lt_succ_self g)).2.1 vs lvl rest hs2]
    · intro fs lvl rest hsz
      cases f with
      | zero => omega
      | succ g =>
      cases fs with
      | nil =>
        rw [show serFTail (lvl + 1) ([] : List (List Char × JVal)) = [] by simp [serFTail],
          List.nil_append, skipWs_cons_ws (by decide), skipWs_pad, skipWs_cons_nws (by decide)]
        rw [parseFieldsRest, if_pos rfl]
      | cons kv fs =>
        have hs0 : jsize kv.2 + jsizeF fs < g + 1 := by
          simp only [jsizeF] at hsz
          omega
        have hs1 : jsize kv.2 ≤ g := by
          have := jsize_pos kv.2
          omega
        have hs2 : jsizeF fs < g := by
          have := jsize_pos kv.2
          omega
        rw [show serFTail (lvl + 1) (kv :: fs) = ',' :: '\n' :: pad (lvl + 1) ++
          serEntry (lvl + 1) kv ++ serFTail (lvl + 1) fs by simp [serFTail]]
        rw [show serEntry (lvl + 1) kv = '"' :: escString kv.1 ++ '"' :: ':' :: ' ' ::
          serVal (lvl + 1) kv.2 by simp [serEntry]]
        simp only [List.cons_append, List.append_assoc, List.nil_append]
        rw [skipWs_cons_nws (by decide), parseFieldsRest,
          if_neg (by decide : ¬(',' : Char) = '\x7d'), if_pos rfl,
          skipWs_cons_ws (by decide), skipWs_pad, skipWs_cons_nws (by decide), keyColon_ser]
        simp only [skipWs_cons_ws (show jsonWs ' ' = true from by decide), skipWs_serVal]
        rw [(ih g (Nat.lt_succ_self g)).1 kv.2 (lvl + 1) _ hs1
          (digHead_serFTail (lvl + 1) fs (pad lvl ++ '\x7d' :: rest))]
        simp [(ih g (Nat.lt_succ_self g)).2.2 fs lvl rest hs2]

/-- Writing then reloading: the decoded value is the key-sorted canonical form
of the record written. -/
theorem loadJson_dumpJson (v : JVal) : loadJson (dumpJson v) = some (canon v) := by
  unfold loadJson dumpJson
  have hlen := serVal_len (canon v) 0
  rw [skipWs_serVal]
  rw [(parse_ser ((serVal 0 (canon v) ++ ['\n']).length + 1)).1 (canon v) 0 ['\n']
    (by simp only [List.length_append, List.length_cons, List.length_nil]; omega) (by decide)]
  simp [skipWs, jsonWs]

/-- Distinct keys (a Python dict can never carry duplicates). -/
def keysNodup : List (List Char) → Bool
  | [] => true
  | k :: r => !r.contains k && keysNodup r

mutual
/-- Well-formedness of a value as the image of a Python object: every mapping
in it has distinct keys. -/
def jwf : JVal → Bool
  | .arr l => jwfL l
  | .obj m => keysNodup (m.map Prod.fst) && jwfF m
  | .null => true
  | .bool _ => true
  | .int _ => true
  | .str _ => true
/-- `jwf` over an array's elements. -/
def jwfL : List JVal → Bool
  | [] => true
  | v :: r => jwf v && jwfL r
/-- `jwf` over a mapping's values. -/
def jwfF : List (List Char × JVal) → Bool
  | [] => true
  | kv :: r => jwf kv.2 && jwfF r
end

/-- Field-for-field equality of two JSON values: identical scalars,
element-wise equal arrays, and mappings carrying exactly the same keys with
field-for-field equal values under each key. -/
inductive JEquiv : JVal → JVal → Prop where
  | null : JEquiv .null .null
  | bool : ∀ b, JEquiv (.bool b) (.bool b)
  | int : ∀ n, JEquiv (.int n) (.int n)
  | str : ∀ s, JEquiv (.str s) (.str s)
  | arr : ∀ l₁ l₂, l₁.length = l₂.length →
      (∀ p ∈ List.zip l₁ l₂, JEquiv p.1 p.2) → JEquiv (.arr l₁) (.arr l₂)
  | obj : ∀ m₁ m₂,
      (∀ k, jLookup k m₁ = none ↔ jLookup k m₂ = none) →
      (∀ k a b, jLookup k m₁ = some a → jLookup k m₂ = some b → JEquiv a b) →
      JEquiv (.obj m₁) (.obj m₂)

theorem canonL_eq_map : ∀ l : List JVal, canonL l = l.map canon := by
  intro l
  induction l with
  | nil => simp [canonL]
  | cons v r ih => simp [canonL, ih]

theorem canonF_keys : ∀ m : List (List Char × JVal),
    (canonF m).map Prod.fst = m.map Prod.fst := by
  intro m
  induction m with
  | nil => simp [canonF]
  | cons kv r ih => simp [canonF, ih]

theorem insertField_perm (kv : List Char × JVal) :
    ∀ l : List (List Char × JVal), List.Perm (insertField kv l) (kv :: l) := by
  intro l
  induction l with
  | nil => rfl
  | cons kv2 r ih =>
    rw [insertField]
    by_cases h : keyLt kv.1 kv2.1
    · rw [if_pos h]
    · rw [if_neg h]
      exact (List.Perm.cons kv2 ih).trans (List.Perm.swap kv kv2 r)

theorem sortFields_perm : ∀ l : List (List Char × JVal), List.Perm (sortFields l) l := by
  intro l
  induction l with
  | nil => rfl
  | cons kv r ih =>
    rw [show sortFields (kv :: r) = insertField kv (sortFields r) from rfl]
    exact (insertField_perm kv (sortFields r)).trans (List.Perm.cons kv ih)

theorem keysContains_iff {l : List (List Char)} {k : List Char} :
    l.contains k = true ↔ k ∈ l := by
  simp

theorem keysNodup_iff : ∀ l : List (List Char), keysNodup l = true ↔ l.Nodup := by
  intro l
  induction l with
  | nil => simp [keysNodup]
  | cons k r ih =>
    rw [keysNodup, List.nodup_cons, Bool.and_eq_true, Bool.not_eq_true', ← ih]
    constructor
    · rintro ⟨h1, h2⟩
      refine ⟨fun hm => ?_, h2⟩
      rw [keysContains_iff.mpr hm] at h1
      exact absurd h1 (by decide)
    · rintro ⟨h1, h2⟩
      refine ⟨?_, h2⟩
      cases hc : r.contains k with
      | false => rfl
      | true => exact absurd (keysContains_iff.mp hc) h1

theorem jLookup_perm {l₁ l₂ : List (List Char × JVal)} (hp : List.Perm l₁ l₂) :
    keysNodup (l₂.map Prod.fst) = true → ∀ k, jLookup k l₁ = jLookup k l₂ := by
  induction hp with
  | nil => exact fun _ _ => rfl
  | cons x hp ih =>
    intro hnd k
    rw [jLookup, jLookup]
    by_cases hx : x.1 = k
    · rw [if_pos hx, if_pos hx]
    · rw [if_neg hx, if_neg hx]
      refine ih ?_ k
      simp only [List.map_cons, keysNodup, Bool.and_eq_true] at hnd
      exact hnd.2
  | swap x y l =>
    intro hnd k
    simp only [List.map_cons, keysNodup, Bool.and_eq_true, Bool.not_eq_true'] at hnd
    rw [jLookup, jLookup, jLookup, jLookup]
    by_cases hy : y.1 = k
    · by_cases hx : x.1 = k
      · exfalso
        have hmem : x.1 ∈ y.1 :: l.map Prod.fst := by
          rw [hx, ← hy]
          exact List.mem_cons_self _ _
        have hcontr := keysContains_iff.mpr hmem
        rw [hnd.1] at hcontr
        exact absurd hcontr (by decide)
      · rw [if_pos hy, if_neg hx, if_pos hy]
    · by_cases hx : x.1 = k
      · rw [if_neg hy, if_pos hx, if_pos hx]
      · rw [if_neg hy, if_neg hx, if_neg hx, if_neg hy]
  | trans h12 h23 ih12 ih23 =>
    intro hnd k
    have hnd3 := (keysNodup_iff _).mp hnd
    have hnd2 := (keysNodup_iff _).mpr (((h23.map Prod.fst).nodup_iff).mpr hnd3)
    exact (ih12 hnd2 k).trans (ih23 hnd k)

theorem jLookup_canonF (k : List Char) : ∀ m : List (List Char × JVal),
    jLookup k (canonF m) = (jLookup k m).map canon := by
  intro m
  induction m with
  | nil => simp [canonF, jLookup]
  | cons kv r ih =>
    rw [show canonF (kv :: r) = (kv.1, canon kv.2) :: canonF r by simp [canonF], jLookup,
      jLookup]
    by_cases h : kv.1 = k
    · rw [if_pos h, if_pos h]
      rfl
    · rw [if_neg h, if_neg h, ih]

theorem jLookup_mem {k : List Char} {v : JVal} : ∀ {l : List (List Char × JVal)},
    jLookup k l = some v → (k, v) ∈ l := by
  intro l
  induction l with
  | nil => intro h; cases h
  | cons kv r ih =>
    intro h
    rw [jLookup] at h
    by_cases h1 : kv.1 = k
    · rw [if_pos h1] at h
      have hv : kv.2 = v := by
        injection h
      have : kv = (k, v) := by
        rw [← h1, ← hv]
      exact this ▸ List.mem_cons_self kv r
    · rw [if_neg h1] at h
      exact List.mem_cons_of_mem kv (ih h)

theorem jLookup_none_not_mem {k : List Char} : ∀ {l : List (List Char × JVal)},
    jLookup k l = none → k ∉ l.map Prod.fst := by
  intro l
  induction l with
  | nil => intro _ h; cases h
  | cons kv r ih =>
    intro h hm
    rw [jLookup] at h
    by_cases h1 : kv.1 = k
    · rw [if_pos h1] at h
      cases h
    · rw [if_neg h1] at h
      rcases List.mem_cons.mp hm with he | hm2
      · exact h1 he.symm
      · exact ih h hm2

theorem jwfL_mem : ∀ {l : List JVal}, jwfL l = true → ∀ v ∈ l, jwf v = true := by
  intro l
  induction l with
  | nil => intro _ v hv; cases hv
  | cons x r ih =>
    intro h v hv
    rw [jwfL, Bool.and_eq_true] at h
    rcases List.mem_cons.mp hv with rfl | hv2
    · exact h.1
    · exact ih h.2 v hv2

theorem jwfF_mem : ∀ {m : List (List Char × JVal)}, jwfF m = true →
    ∀ kv ∈ m, jwf kv.2 = true := by
  intro m
  induction m with
  | nil => intro _ kv hkv; cases hkv
  | cons x r ih =>
    intro h kv hkv
    rw [jwfF, Bool.and_eq_true] at h
    rcases List.mem_cons.mp hkv with rfl | hkv2
    · exact h.1
    · exact ih h.2 kv hkv2

theorem mem_zip_map {l : List JVal} {p : JVal × JVal} :
    p ∈ List.zip (l.map canon) l → ∃ x ∈ l, p = (canon x, x) := by
  induction l with
  | nil => intro h; cases h
  | cons x r ih =>
    intro h
    rw [List.map_cons, List.zip_cons_cons] at h
    rcases List.mem_cons.mp h with rfl | h2
    · exact ⟨x, List.mem_cons_self x r, rfl⟩
    · obtain ⟨y, hy, he⟩ := ih h2
      exact ⟨y, List.mem_cons_of_mem x hy, he⟩

/-- Canonicalization preserves the record field-for-field: the key-sorted form
is `JEquiv` to the original whenever the original's mappings have distinct
keys. -/
theorem JEquiv_canon : ∀ v : JVal, jwf v = true → JEquiv (canon v) v := by
  refine JVal.indStrong (fun v => jwf v = true → JEquiv (canon v) v) ?_ ?_ ?_ ?_ ?_ ?_
  · intro _
    rw [show canon .null = .null by simp [canon]]
    exact .null
  · intro b _
    rw [show canon (.bool b) = .bool b by simp [canon]]
    exact .bool b
  · intro n _
    rw [show canon (.int n) = .int n by simp [canon]]
    exact .int n
  · intro s _
    rw [show canon (.str s) = .str s by simp [canon]]
    exact .str s
  · intro l hmem hwf
    rw [show canon (.arr l) = .arr (canonL l) by simp [canon], canonL_eq_map]
    refine JEquiv.arr _ _ (by simp) ?_
    intro p hp
    obtain ⟨x, hx, rfl⟩ := mem_zip_map hp
    refine hmem x hx ?_
    rw [show jwf (JVal.arr l) = jwfL l by simp [jwf]] at hwf
    exact jwfL_mem hwf x hx
  · intro m hmem hwf
    rw [show canon (.obj m) = .obj (sortFields (canonF m)) by simp [canon]]
    rw [show jwf (JVal.obj m) = (keysNodup (m.map Prod.fst) && jwfF m) by simp [jwf],
      Bool.and_eq_true] at hwf
    have hndc : keysNodup ((canonF m).map Prod.fst) = true := by
      rw [canonF_keys]
      exact hwf.1
    refine JEquiv.obj _ _ ?_ ?_
    · intro k
      have h1 : jLookup k (sortFields (canonF m)) = jLookup k (canonF m) :=
        jLookup_perm (sortFields_perm (canonF m)) hndc k
      rw [h1, jLookup_canonF k m]
      cases jLookup k m <;> simp
    · intro k a b ha hb
      have h1 : jLookup k (sortFields (canonF m)) = jLookup k (canonF m) :=
        jLookup_perm (sortFields_perm (canonF m)) hndc k
      rw [h1, jLookup_canonF k m, hb] at ha
      have hab : canon b = a := by
        simp only [Option.map] at ha
        injection ha
      rw [← hab]
      exact hmem (k, b) (jLookup_mem hb) (jwfF_mem hwf.2 (k, b) (jLookup_mem hb))

/-- A concrete credential record for the round-trip witness. -/
def oauthRecEx : List (List Char × JVal) :=
  [(cl "access_token", .str (cl "tok")),
   (cl "refresh_token", .str (cl "ref")),
   (cl "token_type", .str (cl "bearer")),
   (cl "expires_in", .int 3600)]

/-- `C4`: for every credential record — a JSON-serializable mapping, whose
keys are distinct as in any Python dict — writing it with `_write_oauth_data`
(`json.dump` with two-space indent and sorted keys plus a trailing newline)
and reloading it with `_load_oauth_data` (`json.load`) succeeds and yields a
record field-for-field equal to the one written. -/
theorem oauth_write_load_roundtrip (fs : List (List Char × JVal))
    (h : jwf (.obj fs) = true) :
    ∃ w, loadJson (dumpJson (.obj fs)) = some w ∧ JEquiv w (.obj fs) :=
  ⟨canon (.obj fs), loadJson_dumpJson (.obj fs), JEquiv_canon (.obj fs) h⟩

/-- Witness for `C4` at a concrete four-field credential record. -/
theorem oauth_write_load_roundtrip_witness :
    jwf (.obj oauthRecEx) = true ∧
      ∃ w, loadJson (dumpJson (.obj oauthRecEx)) = some w ∧ JEquiv w (.obj oauthRecEx) :=
  ⟨by decide, oauth_write_load_roundtrip oauthRecEx (by decide)⟩
